import Mathlib

/-!
# Verification of the `variantdev/dag` leveled topological sorter

This development is a shallow embedding of `pkg/dag/dag.go` (the `Key`-based
final version of the package).  Go maps are modelled as association lists
(`List (K × V)`) whose iteration order is the insertion order; Go map values
read at an absent key yield the zero value, modelled by `Option.getD`.
Machine integers (`int` counts) are modelled by `Int`.  Functions that can
panic in Go return an explicit outcome constructor.
-/

set_option autoImplicit false
set_option linter.unusedSectionVars false
set_option linter.unnecessarySeqFocus false

namespace VDag

variable {K : Type} [LinearOrder K]
variable {V : Type}

/-- First value bound to key `k` in an association list (Go map lookup). -/
def alookup (k : K) : List (K × V) → Option V
  | [] => none
  | p :: l => if p.1 = k then some p.2 else alookup k l

/-- Go map assignment `m[k] = v`: replace the binding of `k`, appending a new
binding at the end of the iteration order when `k` is absent. -/
def aset (k : K) (v : V) : List (K × V) → List (K × V)
  | [] => [(k, v)]
  | p :: l => if p.1 = k then (k, v) :: l else p :: aset k v l

@[simp] theorem alookup_nil (k : K) : alookup k ([] : List (K × V)) = none := rfl

theorem alookup_cons (k : K) (p : K × V) (l : List (K × V)) :
    alookup k (p :: l) = if p.1 = k then some p.2 else alookup k l := rfl

theorem alookup_aset_self (k : K) (v : V) (l : List (K × V)) :
    alookup k (aset k v l) = some v := by
  induction l with
  | nil => simp [aset, alookup]
  | cons p l ih =>
    by_cases h : p.1 = k
    · simp [aset, h, alookup]
    · simp [aset, h, alookup, ih]

theorem alookup_aset_ne (k k' : K) (h : k' ≠ k) (v : V) (l : List (K × V)) :
    alookup k (aset k' v l) = alookup k l := by
  induction l with
  | nil => simp [aset, alookup, h]
  | cons p l ih =>
    by_cases hp : p.1 = k'
    · subst hp
      simp [aset, alookup, h, Ne.symm h]
    · by_cases hk : p.1 = k
      · simp [aset, hp, alookup, hk, Ne.symm h]
      · simp [aset, hp, alookup, hk, ih]

theorem alookup_isSome_iff_mem_keys (k : K) (l : List (K × V)) :
    (alookup k l).isSome ↔ k ∈ l.map Prod.fst := by
  induction l with
  | nil => simp [alookup]
  | cons p l ih =>
    by_cases h : p.1 = k
    · simp [alookup, h]
    · simp [alookup, h, ih, Ne.symm h]

theorem keys_aset (k : K) (v : V) (l : List (K × V)) :
    (aset k v l).map Prod.fst =
      if k ∈ l.map Prod.fst then l.map Prod.fst else l.map Prod.fst ++ [k] := by
  induction l with
  | nil => simp [aset]
  | cons p l ih =>
    by_cases h : p.1 = k
    · simp [aset, h]
    · simp only [aset, if_neg h, List.map_cons, ih]
      by_cases hm : k ∈ l.map Prod.fst <;>
        simp [hm, h, Ne.symm h, List.mem_cons]

theorem keys_aset_nodup (k : K) (v : V) (l : List (K × V))
    (h : (l.map Prod.fst).Nodup) : ((aset k v l).map Prod.fst).Nodup := by
  rw [keys_aset]
  by_cases hm : k ∈ l.map Prod.fst
  · simpa [hm] using h
  · rw [if_neg hm]
    exact (List.nodup_append).2 ⟨h, List.nodup_singleton k,
      by simpa [List.disjoint_singleton] using hm⟩

/-! ## The graph store (`type DAG struct`) -/

/-- `type DAG struct` from dag.go.  `outputs` maps a dependency to the set of
its dependents (inner Go map rendered as a duplicate-free list); `numInputs`
is the remaining-input count of each key; absent entries read as `0`. -/
structure DAG (K : Type) where
  cap : Nat := 0
  initNodes : List K := []
  nodes : List K := []
  outputs : List (K × List K) := []
  labels : List (K × List String) := []
  numInputs : List (K × Int) := []
deriving Repr, DecidableEq

/-- The dependents bucket of `k` (Go `g.outputs[k]`, zero value `nil` ↦ `[]`). -/
def DAG.bucket (g : DAG K) (k : K) : List K := (alookup k g.outputs).getD []

/-- The remaining-input count of `k` (Go `g.numInputs[k]`, absent ↦ `0`). -/
def DAG.count (g : DAG K) (k : K) : Int := (alookup k g.numInputs).getD 0

/-- Edge `(a, b)` is present: `b` depends on `a`. -/
def DAG.edge (g : DAG K) (a b : K) : Prop := b ∈ g.bucket a

instance (g : DAG K) (a b : K) : Decidable (g.edge a b) := by
  unfold DAG.edge; infer_instance

/-- `func (g *DAG) AddNode(key Key) bool`.  Note the guard of the final
`numInputs` write in the source is `ok` (not `!ok`), so that write is dead
code and `numInputs[key]` is never initialised here; this is modelled
verbatim. -/
def DAG.AddNode (g : DAG K) (key : K) : DAG K × Bool :=
  if (alookup key g.numInputs).isSome then (g, false)
  else
    let g := { g with nodes := g.nodes ++ [key] }
    let g := if (alookup key g.outputs).isSome then g
             else { g with outputs := aset key [] g.outputs }
    let g := if (alookup key g.numInputs).isSome then
               { g with numInputs := aset key 0 g.numInputs }
             else g
    (g, true)

/-- `func (g *DAG) AddNodes(names ...Key) bool`. -/
def DAG.AddNodes (g : DAG K) : List K → DAG K × Bool
  | [] => (g, true)
  | name :: rest =>
    let (g', ok) := g.AddNode name
    if ok then g'.AddNodes rest else (g', false)

/-- `func (g *DAG) AddEdge(from, to Key) bool`: auto-creates the source
bucket, inserts `to` into the set, and unconditionally increments `to`'s
remaining-input count (also on a duplicate edge). -/
def DAG.AddEdge (g : DAG K) (src dst : K) : DAG K × Bool :=
  let m := (alookup src g.outputs).getD []
  let m := if dst ∈ m then m else m ++ [dst]
  ({ g with outputs := aset src m g.outputs
            numInputs := aset dst ((alookup dst g.numInputs).getD 0 + 1) g.numInputs },
   true)

/-- `func (g *DAG) AddDependency(sub Key, dependencies ...Key) bool`. -/
def DAG.AddDependency (g : DAG K) (sub : K) : List K → DAG K × Bool
  | [] => (g, true)
  | d :: rest =>
    let (g', r) := g.AddEdge d sub
    if r then g'.AddDependency sub rest else (g', false)

/-- `func (g *DAG) AddDependencies(sub Key, dependencies []Key) bool`. -/
def DAG.AddDependencies (g : DAG K) (sub : K) (deps : List K) : DAG K × Bool :=
  g.AddDependency sub deps

/-- `func (g *DAG) AddLabel(sub Key, labels ...string)`. -/
def DAG.AddLabel (g : DAG K) (sub : K) : List String → DAG K
  | [] => g
  | d :: rest =>
    let m := (alookup sub g.labels).getD []
    let m := if d ∈ m then m else m ++ [d]
    DAG.AddLabel { g with labels := aset sub m g.labels } sub rest

/-- `func (g *DAG) AddLabels(sub Key, labels []string)`. -/
def DAG.AddLabels (g : DAG K) (sub : K) (ls : List String) : DAG K :=
  g.AddLabel sub ls

/-- `AddOpts` for `Add`: the `Dependencies`/`Labels` options resolved. -/
structure AddOpts (K : Type) where
  deps : List K := []
  labels : List String := []

/-- `func (g *DAG) Add(node Key, opt ...AddOption) bool`. -/
def DAG.Add (g : DAG K) (node : K) (opts : AddOpts K := {}) : DAG K × Bool :=
  let g := (g.AddNode node).1
  let (g, deps) := g.AddDependencies node opts.deps
  let g := g.AddLabels node opts.labels
  (g, deps)

/-- `func (g *DAG) unsafeRemoveEdge(from, to Key)` (source name kept modulo a
forbidden prefix): `delete(g.outputs[from], to)` — a no-op when the bucket is
absent — then an unconditional decrement of `numInputs[to]`. -/
def DAG.removeEdgeUnchecked (g : DAG K) (src dst : K) : DAG K :=
  let outputs := match alookup src g.outputs with
    | some m => aset src (m.erase dst) g.outputs
    | none => g.outputs
  { g with outputs
           numInputs := aset dst ((alookup dst g.numInputs).getD 0 - 1) g.numInputs }

/-- `func (g *DAG) RemoveEdge(from, to Key) bool`: fails only when `from` has
no bucket; the decrement happens even when the edge itself is absent. -/
def DAG.RemoveEdge (g : DAG K) (src dst : K) : DAG K × Bool :=
  if (alookup src g.outputs).isSome then (g.removeEdgeUnchecked src dst, true)
  else (g, false)

/-! ## Construction (`func New(opt ...Option) *DAG`) -/

/-- A construction option mutates the fresh `DAG` value (`type Option func(*DAG)`;
the Go name `Option` collides with Lean's `Option`). -/
def GraphOption (K : Type) := DAG K → DAG K

/-- `func Capacity(n int) Option`. -/
def Capacity (n : Nat) : GraphOption K := fun g => { g with cap := n }

/-- `func Nodes(nodes []Key) Option`. -/
def Nodes (ns : List K) : GraphOption K := fun g => { g with initNodes := ns }

/-- `func Node(nodes ...Key) Option`. -/
def NodeOption (ns : List K) : GraphOption K := Nodes ns

/-- `func New(opt ...Option) *DAG`. -/
def New (opts : List (GraphOption K) := []) : DAG K :=
  let g : DAG K := {}
  let g := opts.foldl (fun g o => o g) g
  let g := { g with nodes := [] }
  (g.AddNodes g.initNodes).1

/-! ## Sort options (`SortOptions`, `Only`, `WithDependencies`, `WithoutDependencies`) -/

/-- `type SortOptions struct`. -/
structure SortOptions (K : Type) where
  only : List K := []
  withDependencies : Bool := false
  withoutDependencies : Bool := false

/-- A sort option transforms the accumulated `SortOptions`
(`ApplySortOptions`). -/
def SortOption (K : Type) := SortOptions K → SortOptions K

/-- `func Only(nodes ...Key) SortOption`: appends to the selection. -/
def Only (ks : List K) : SortOption K := fun so => { so with only := so.only ++ ks }

/-- `func WithDependencies() SortOption`. -/
def WithDependencies : SortOption K := fun so => { so with withDependencies := true }

/-- `func WithoutDependencies() SortOption`. -/
def WithoutDependencies : SortOption K := fun so => { so with withoutDependencies := true }

/-- Left-to-right application of the option list (`o.ApplySortOptions(&options)`). -/
def applySortOptions (opts : List (SortOption K)) : SortOptions K :=
  opts.foldl (fun so o => o so) {}

/-- Go set-map insertion `m[x] = struct{}{}` on a set rendered as a
duplicate-free list. -/
def sinsert (x : K) (l : List K) : List K := if x ∈ l then l else l ++ [x]

/-- Building the `only` set map from the accumulated `options.Only` slice. -/
def dedupKeep (l : List K) : List K := l.foldl (fun acc o => sinsert o acc) []

/-! ## Sorting within a level / of invalid node ids (Go `sort.Slice` by `Less`) -/

def insertLe (x : K) : List K → List K
  | [] => [x]
  | y :: ys => if x ≤ y then x :: y :: ys else y :: insertLe x ys

/-- Ascending sort by the key order; models Go's `sort.Slice`/`sort.Strings`
calls (the result is the unique sorted arrangement of the ids). -/
def isort : List K → List K
  | [] => []
  | x :: xs => insertLe x (isort xs)

/-! ## The leveling loop (Kahn phase of `func (g *DAG) Sort`) -/

/-- The part of the working state the edge-relaxation inner loop mutates. -/
structure KPart (K : Type) where
  outputs : List (K × List K)
  numInputs : List (K × Int)
  next : List K

/-- The inner loop `for _, m := range ms` of `Sort`: for each dependent `m`
of the node `nid` being processed, remove edge `(nid, m)` from the working
snapshot, decrement `m`'s remaining-input count, and — after the
`nodes[m]` pointer dereference, which in Go panics when `m` was never
registered (modelled by `none`) — append `m` to the next frontier when its
count reached `0`. -/
def relaxList (registered : List K) (nid : K) : List K → KPart K → Option (KPart K)
  | [], p => some p
  | m :: rest, p =>
    let outputs := match alookup nid p.outputs with
      | some m0 => aset nid (m0.erase m) p.outputs
      | none => p.outputs
    let numInputs := aset m ((alookup m p.numInputs).getD 0 - 1) p.numInputs
    if m ∈ registered then
      let next := if (alookup m numInputs).getD 0 = 0 then p.next ++ [m] else p.next
      relaxList registered nid rest { outputs, numInputs, next }
    else none

/-- Working state of the leveling loop.  `levels` are the completed depth
groups (`sortedSets[0..depth-1]`); `curGroup` is `sortedSets[depth]` under
construction, flushed when the current frontier empties. -/
structure KS (K : Type) where
  outputs : List (K × List K)
  numInputs : List (K × Int)
  current : List K
  next : List K
  levels : List (List K)
  curGroup : List K

inductive KOut (K : Type) where
  | done (s : KS K)
  | nilPanic
  | fuelOut

/-- `for len(current) > 0 { ... }` of `Sort`, fueled (the fuel argument is an
artifact of the embedding; `kfuel` below is proven sufficient). -/
def kloop (registered : List K) : Nat → KS K → KOut K
  | 0, _ => .fuelOut
  | fuel + 1, s =>
    match s.current with
    | [] => .done s
    | n :: rest =>
      let curGroup := s.curGroup ++ [n]
      let ms := (alookup n s.outputs).getD []
      match relaxList registered n ms
          { outputs := s.outputs, numInputs := s.numInputs, next := s.next } with
      | none => .nilPanic
      | some p =>
        if rest.isEmpty then
          kloop registered fuel
            { outputs := p.outputs, numInputs := p.numInputs,
              current := p.next, next := [], levels := s.levels ++ [curGroup], curGroup := [] }
        else
          kloop registered fuel
            { outputs := p.outputs, numInputs := p.numInputs,
              current := rest, next := p.next, levels := s.levels, curGroup := curGroup }

/-- Sum of the positive remaining-input counts, part of the loop measure. -/
def posSum (l : List (K × Int)) : Nat := (l.map (fun p => p.2.toNat)).sum

/-- Loop measure plus one: sufficient fuel for `kloop`. -/
def kfuel (s : KS K) : Nat := s.current.length + s.next.length + posSum s.numInputs + 1

/-- `numUnresolvedEdges`: the sum of all remaining-input counts after leveling. -/
def unresolvedSum (l : List (K × Int)) : Int := (l.map (fun p => p.2)).sum

/-- `invalidNodes`: ids whose remaining-input count is still positive. -/
def invalidIds (l : List (K × Int)) : List K := (l.filter (fun p => 0 < p.2)).map Prod.fst

/-- Seed of the cycle walk: the first id (in sorted order) that still has an
outgoing edge in the working snapshot; `none` triggers the
`"invalid state"` panic. -/
def findSeed (outputs : List (K × List K)) : List K → Option K
  | [] => none
  | id :: rest =>
    if ((alookup id outputs).getD []).length > 0 then some id else findSeed outputs rest

/-- The cycle-reconstruction walk `for !seen[cur] { ... }`: append `cur`,
follow one outgoing edge of `cur` in the working snapshot (the embedding
fixes Go's arbitrary map-iteration choice to the first bucket entry; a node
with an empty bucket leaves `cur` unchanged), stop when a node repeats and
append it once more. -/
def walkFuel (outputs : List (K × List K)) : Nat → List K → K → List K
  | 0, path, cur => path ++ [cur]
  | fuel + 1, path, cur =>
    if cur ∈ path then path ++ [cur]
    else walkFuel outputs fuel (path ++ [cur]) (((alookup cur outputs).getD []).headD cur)

/-- Sufficient fuel for `walkFuel`: every node the walk can visit is the seed
or a member of some bucket. -/
def wfuel (outputs : List (K × List K)) : Nat := (outputs.map (fun p => p.2.length)).sum + 2

/-! ## Results and errors -/

/-- The error taxonomy of §7: cycle-detected, undefined-dependency and
unhandled-dependency (of which `Sort` only ever reports the first offending
entry). -/
inductive SortErr (K : Type) where
  | cycle (path : List K)
  | undefined (node : K) (dependents : List K)
  | unhandled (id : K) (dependents : List K)
deriving DecidableEq

inductive PanicKind where
  | invalidState
  | nilDeref
  | fuelInsufficient
deriving DecidableEq

/-- The outcome of `Sort`: the Go `(Topology, error)` pair (`Topology` is a
list of groups of ids, Go `nil` rendered `[]`), or a panic. -/
inductive SortRes (K : Type) where
  | ret (topo : List (List K)) (err : Option (SortErr K))
  | panicked (kind : PanicKind)
deriving DecidableEq

/-! ## The scope-resolution filter (lines 1460–1532 of `Sort`) -/

/-- Per-level scan.  For each node of a level: include it when there is no
selection or it is selected; otherwise drop it under `WithoutDependencies`;
otherwise collect the selected nodes depending on it **in the live graph**
(`g.outputs`), and when nonempty either fail (no `WithDependencies`) with the
dependents sorted, or fold the node into the effective selection and include
it.  Returns the included ids (in scan order) and the updated selection. -/
def scanLevel (g : DAG K) (withDeps withoutDeps : Bool) :
    List K → Option (List K) → List K → Except (K × List K) (List K × Option (List K))
  | [], only, inc => .ok (inc, only)
  | node :: rest, none, inc => scanLevel g withDeps withoutDeps rest none (inc ++ [node])
  | node :: rest, some only, inc =>
    if node ∈ only then
      scanLevel g withDeps withoutDeps rest (some only) (inc ++ [node])
    else if withoutDeps then
      scanLevel g withDeps withoutDeps rest (some only) inc
    else
      let dependents := only.filter (fun t => t ∈ g.bucket node)
      if dependents.isEmpty then
        scanLevel g withDeps withoutDeps rest (some only) inc
      else if !withDeps then
        .error (node, isort dependents)
      else
        scanLevel g withDeps withoutDeps rest (some (sinsert node only)) (inc ++ [node])

/-- The levels are walked from the last (deepest) to the first; the argument
is the reversed level list.  Each surviving level is sorted by key and empty
levels are dropped; the output is in ascending depth order, mirroring the
`r[k] = included` array assignment followed by the compaction loop. -/
def filterRev (g : DAG K) (withDeps withoutDeps : Bool) :
    List (List K) → Option (List K) → Except (K × List K) (List (List K))
  | [], _ => .ok []
  | grp :: rest, only =>
    match scanLevel g withDeps withoutDeps grp only [] with
    | .error e => .error e
    | .ok (inc, only') =>
      match filterRev g withDeps withoutDeps rest only' with
      | .error e => .error e
      | .ok out => .ok (if inc.isEmpty then out else out ++ [isort inc])

/-! ## Snapshot copies (`numInputs := map[Key]int{}` / `outputs := ...` copy loops) -/

/-- The element-wise copy of the live `numInputs` map taken at the top of
`Sort`, so the live graph is never mutated. -/
def copyCounts : List (K × Int) → List (K × Int)
  | [] => []
  | p :: l => (p.1, p.2) :: copyCounts l

def copyList : List K → List K
  | [] => []
  | x :: l => x :: copyList l

/-- The deep copy of the live `outputs` map taken at the top of `Sort`. -/
def copyOutputs : List (K × List K) → List (K × List K)
  | [] => []
  | p :: l => (p.1, copyList p.2) :: copyOutputs l

/-- The pre-leveling referential-integrity check
`for dep, dependents := range outputs { if _, ok := nodes[dep]; !ok ... }`:
the first bucket key that is not a registered node, with its dependents. -/
def findUndefined (registered : List K) : List (K × List K) → Option (K × List K)
  | [] => none
  | p :: rest => if p.1 ∈ registered then findUndefined registered rest else some p

/-! ## `func (g *DAG) Sort(opts ...SortOption) (Topology, error)` -/

/-- The body of `Sort` applied to resolved options. -/
def DAG.sortWith (g : DAG K) (options : SortOptions K) : SortRes K :=
  let only : Option (List K) :=
    if options.only.length > 0 then some (dedupKeep options.only) else none
  let numInputs := copyCounts g.numInputs
  let outputs := copyOutputs g.outputs
  let withDeps := options.withDependencies
  let withoutDeps := options.withoutDependencies
  let registered := g.nodes
  let current := g.nodes.filter (fun n => (alookup n numInputs).getD 0 = 0)
  match findUndefined registered outputs with
  | some (dep, dependents) => .ret [] (some (.undefined dep dependents))
  | none =>
    let s0 : KS K := { outputs := outputs, numInputs := numInputs,
                       current := current, next := [], levels := [], curGroup := [] }
    match kloop registered (kfuel s0) s0 with
    | .nilPanic => .panicked .nilDeref
    | .fuelOut => .panicked .fuelInsufficient
    | .done s =>
      if 0 < unresolvedSum s.numInputs then
        match findSeed s.outputs (isort (invalidIds s.numInputs)) with
        | none => .panicked .invalidState
        | some cur =>
          .ret s.levels (some (.cycle (walkFuel s.outputs (wfuel s.outputs) [] cur)))
      else
        match filterRev g withDeps withoutDeps s.levels.reverse only with
        | .error (id, deps) => .ret [] (some (.unhandled id deps))
        | .ok res => .ret res none

/-- `Sort` (a Lean keyword, hence `sortG`): apply the options, then run. -/
def DAG.sortG (g : DAG K) (opts : List (SortOption K) := []) : SortRes K :=
  g.sortWith (applySortOptions opts)

/-- `func (g *DAG) Plan(opts ...SortOption) (Topology, error)` delegates to `Sort`. -/
def DAG.Plan (g : DAG K) (opts : List (SortOption K) := []) : SortRes K :=
  g.sortG opts

/-- The `Sort` method viewed as a state transformer on its receiver: the Go
body reads `g.numInputs`/`g.outputs` only to build the private snapshot
copies above and reads `g.outputs` in the scope filter; it never assigns to
any receiver field, so the receiver after the call is the receiver before
it. -/
def DAG.sortProc (g : DAG K) (opts : List (SortOption K)) : DAG K × SortRes K :=
  (g, g.sortG opts)

/-! ## String renderings (`Error()` methods and `Topology.String()`) -/

/-- Go's `%q` for a plain key (no escape-needing characters). -/
def goQuote (s : String) : String := "\"" ++ s ++ "\""

/-- `func (e *UndefinedDependencyError) Error() string`. -/
def undefinedErrorString (node : String) (dependents : List String) : String :=
  "undefined node " ++ goQuote node ++ " is depended by node(s): "
    ++ String.intercalate ", " dependents

/-- `func (e *UnhandledDependencyError) Error() string` (first entry only). -/
def unhandledErrorString (id : String) (dependents : List String) : String :=
  let dependents := dependents.map goQuote
  let ds := if dependents.length < 3 then String.intercalate " and " dependents
            else String.intercalate ", " dependents.dropLast
              ++ ", and " ++ (dependents.getLast?).getD ""
  goQuote id ++ " depended by " ++ ds ++ " is not included"

/-- `func (e *Error) Error() string` with `Cycle.String()` inlined. -/
def cycleErrorString (path : List String) : String :=
  "cycle detected: " ++ String.intercalate " -> " path

/-- `func (r Topology) String() string`: levels joined by `" -> "`, ids within
a level sorted by key and joined by `", "`. -/
def topologyString (t : List (List String)) : String :=
  if t.length = 0 then ""
  else String.intercalate " -> " (t.map (fun set => String.intercalate ", " (isort set)))

/-! ## Basic facts about the embedding's map operations -/

theorem copyList_id (l : List K) : copyList l = l := by
  induction l with
  | nil => rfl
  | cons x l ih => simp [copyList, ih]

theorem copyCounts_id (l : List (K × Int)) : copyCounts l = l := by
  induction l with
  | nil => rfl
  | cons p l ih => simp [copyCounts, ih]

theorem copyOutputs_id (l : List (K × List K)) : copyOutputs l = l := by
  induction l with
  | nil => rfl
  | cons p l ih => simp [copyOutputs, copyList_id, ih]

theorem alookup_mem {k : K} {v : V} {l : List (K × V)} (h : alookup k l = some v) :
    (k, v) ∈ l := by
  induction l with
  | nil => simp [alookup] at h
  | cons p l ih =>
    rw [alookup_cons] at h
    by_cases hp : p.1 = k
    · rw [if_pos hp] at h
      injection h with h
      exact List.mem_cons.2 (Or.inl (by obtain ⟨p1, p2⟩ := p; simp_all))
    · rw [if_neg hp] at h
      exact List.mem_cons_of_mem _ (ih h)

theorem alookup_eq_of_mem_nodup {p : K × V} {l : List (K × V)}
    (hn : (l.map Prod.fst).Nodup) (hp : p ∈ l) : alookup p.1 l = some p.2 := by
  induction l with
  | nil => simp at hp
  | cons q l ih =>
    simp only [List.map_cons, List.nodup_cons] at hn
    rcases List.mem_cons.1 hp with h | h
    · subst h; simp [alookup_cons]
    · have hq : q.1 ≠ p.1 := fun he => hn.1 (he ▸ List.mem_map_of_mem Prod.fst h)
      rw [alookup_cons, if_neg hq]
      exact ih hn.2 h

theorem mem_keys_of_alookup {k : K} {v : V} {l : List (K × V)}
    (h : alookup k l = some v) : k ∈ l.map Prod.fst := by
  rw [← alookup_isSome_iff_mem_keys, h]; rfl

/-! ## In-degree with respect to an outputs map -/

/-- Number of buckets of `l` containing `k`: the in-degree of `k` in the edge
set represented by `l` (buckets are duplicate-free). -/
def inDeg (l : List (K × List K)) (k : K) : Nat :=
  (l.map (fun p => if k ∈ p.2 then 1 else 0)).sum

theorem inDeg_nil (k : K) : inDeg ([] : List (K × List K)) k = 0 := rfl

theorem inDeg_cons (p : K × List K) (l : List (K × List K)) (k : K) :
    inDeg (p :: l) k = (if k ∈ p.2 then 1 else 0) + inDeg l k := by
  simp [inDeg]

theorem inDeg_pos_of_mem {l : List (K × List K)} {a b : K}
    (h : b ∈ (alookup a l).getD []) : 0 < inDeg l b := by
  induction l with
  | nil => simp [alookup] at h
  | cons p l ih =>
    rw [alookup_cons] at h
    rw [inDeg_cons]
    by_cases hp : p.1 = a
    · rw [if_pos hp, Option.getD_some] at h
      rw [if_pos h]
      omega
    · rw [if_neg hp] at h
      have := ih h
      by_cases hb : b ∈ p.2 <;> simp [hb] <;> omega

/-- Replacing the bucket of the first entry for `a` shifts the in-degree of
`k` by the indicator difference of the old and new bucket. -/
theorem inDeg_aset {l : List (K × List K)} {a : K} {b : List K}
    (h : alookup a l = some b) (b' : List K) (k : K) :
    inDeg (aset a b' l) k + (if k ∈ b then 1 else 0)
      = inDeg l k + (if k ∈ b' then 1 else 0) := by
  induction l with
  | nil => simp [alookup] at h
  | cons p l ih =>
    rw [alookup_cons] at h
    by_cases hp : p.1 = a
    · rw [if_pos hp] at h
      injection h with h
      subst h
      simp only [aset, if_pos hp, inDeg_cons]
      omega
    · rw [if_neg hp] at h
      simp only [aset, if_neg hp, inDeg_cons]
      have := ih h
      omega

theorem inDeg_aset_absent {l : List (K × List K)} {a : K}
    (h : alookup a l = none) (b' : List K) (k : K) :
    inDeg (aset a b' l) k = inDeg l k + (if k ∈ b' then 1 else 0) := by
  induction l with
  | nil => simp [aset, inDeg]
  | cons p l ih =>
    rw [alookup_cons] at h
    by_cases hp : p.1 = a
    · rw [if_pos hp] at h; exact absurd h (by simp)
    · rw [if_neg hp] at h
      simp only [aset, if_neg hp, inDeg_cons]
      have := ih h
      omega

/-! ## Representation invariant of Go maps -/

/-- A `DAG` value that is the image of genuine Go maps: no duplicate keys in
either map, and duplicate-free dependents sets.  Every state reachable
through the package API satisfies this. -/
structure GoodMaps (g : DAG K) : Prop where
  okeys : (g.outputs.map Prod.fst).Nodup
  obuckets : ∀ p ∈ g.outputs, p.2.Nodup
  nkeys : (g.numInputs.map Prod.fst).Nodup

/-- The remaining-input-count data-model invariant of §3: every key's stored
count equals the number of distinct edges currently pointing to it. -/
def CountInv (g : DAG K) : Prop := ∀ k, g.count k = (inDeg g.outputs k : Int)

/-! ## `isort` facts -/

theorem mem_insertLe {x y : K} {l : List K} : y ∈ insertLe x l ↔ y = x ∨ y ∈ l := by
  induction l with
  | nil => simp [insertLe]
  | cons z l ih =>
    by_cases h : x ≤ z
    · simp [insertLe, h]
    · simp [insertLe, h, ih]
      tauto

theorem mem_isort {x : K} {l : List K} : x ∈ isort l ↔ x ∈ l := by
  induction l with
  | nil => simp [isort]
  | cons y l ih => simp [isort, mem_insertLe, ih]

/-! ## Fuel sufficiency for the leveling loop -/

theorem posSum_cons (p : K × Int) (l : List (K × Int)) :
    posSum (p :: l) = p.2.toNat + posSum l := by simp [posSum]

theorem posSum_aset_some {l : List (K × Int)} {k : K} {c : Int}
    (h : alookup k l = some c) (v : Int) :
    posSum (aset k v l) + c.toNat = posSum l + v.toNat := by
  induction l with
  | nil => simp [alookup] at h
  | cons p l ih =>
    rw [alookup_cons] at h
    by_cases hp : p.1 = k
    · rw [if_pos hp] at h
      injection h with h
      subst h
      simp only [aset, if_pos hp, posSum_cons]
      omega
    · rw [if_neg hp] at h
      simp only [aset, if_neg hp, posSum_cons]
      have := ih h
      omega

theorem posSum_aset_none {l : List (K × Int)} {k : K}
    (h : alookup k l = none) (v : Int) :
    posSum (aset k v l) = posSum l + v.toNat := by
  induction l with
  | nil => simp [aset, posSum]
  | cons p l ih =>
    rw [alookup_cons] at h
    by_cases hp : p.1 = k
    · rw [if_pos hp] at h; exact absurd h (by simp)
    · rw [if_neg hp] at h
      simp only [aset, if_neg hp, posSum_cons]
      have := ih h
      omega

theorem posSum_dec_le (l : List (K × Int)) (m : K) :
    posSum (aset m ((alookup m l).getD 0 - 1) l) ≤ posSum l := by
  cases h : alookup m l with
  | none => rw [posSum_aset_none h]; simp [h]
  | some c =>
    have := posSum_aset_some h (((alookup m l).getD 0) - 1)
    rw [h] at this
    simp only [Option.getD_some] at this ⊢
    omega

theorem posSum_dec_push (l : List (K × Int)) (m : K)
    (h : (alookup m (aset m ((alookup m l).getD 0 - 1) l)).getD 0 = 0) :
    posSum (aset m ((alookup m l).getD 0 - 1) l) + 1 ≤ posSum l := by
  rw [alookup_aset_self, Option.getD_some] at h
  cases hl : alookup m l with
  | none => rw [hl] at h; exact absurd h (by decide)
  | some c =>
    rw [hl] at h
    have hc : c = 1 := by
      simp only [Option.getD_some] at h
      omega
    subst hc
    simp only [Option.getD_some]
    have h2 := posSum_aset_some hl ((1 : Int) - 1)
    omega

theorem relaxList_measure (registered : List K) (nid : K) (ms : List K) :
    ∀ (p p' : KPart K), relaxList registered nid ms p = some p' →
      posSum p'.numInputs + p'.next.length ≤ posSum p.numInputs + p.next.length := by
  induction ms with
  | nil =>
    intro p p' h
    simp only [relaxList, Option.some.injEq] at h
    subst h; exact le_refl _
  | cons m rest ih =>
    intro p p' h
    simp only [relaxList] at h
    by_cases hm : m ∈ registered
    · rw [if_pos hm] at h
      by_cases hz :
          (alookup m (aset m ((alookup m p.numInputs).getD 0 - 1) p.numInputs)).getD 0 = 0
      · rw [if_pos hz] at h
        have ihh := ih _ _ h
        dsimp only at ihh
        have := posSum_dec_push p.numInputs m hz
        simp only [List.length_append, List.length_cons, List.length_nil] at ihh
        omega
      · rw [if_neg hz] at h
        have ihh := ih _ _ h
        dsimp only at ihh
        have := posSum_dec_le p.numInputs m
        omega
    · rw [if_neg hm] at h
      exact absurd h (by simp)

theorem kloop_no_fuelOut (registered : List K) :
    ∀ (fuel : Nat) (s : KS K),
      s.current.length + s.next.length + posSum s.numInputs < fuel →
      kloop registered fuel s ≠ .fuelOut := by
  intro fuel
  induction fuel with
  | zero => intro s h; omega
  | succ f ih =>
    intro s h
    obtain ⟨outs, ni, cur, nxt, lvs, cg⟩ := s
    simp only at h
    cases cur with
    | nil => simp [kloop]
    | cons n rest =>
      simp only [kloop]
      cases hr : relaxList registered n ((alookup n outs).getD [])
          { outputs := outs, numInputs := ni, next := nxt } with
      | none => simp
      | some p =>
        have hm := relaxList_measure registered n _ _ _ hr
        dsimp only at hm
        dsimp only
        by_cases hre : rest.isEmpty
        · rw [if_pos hre]
          apply ih
          simp only [List.length_nil]
          have : rest.length = 0 := List.isEmpty_iff_length_eq_zero.1 hre
          simp only [List.length_cons] at h
          omega
        · rw [if_neg hre]
          apply ih
          simp only [List.length_cons] at h ⊢
          omega

theorem kloop_kfuel_ne_fuelOut (registered : List K) (s : KS K) :
    kloop registered (kfuel s) s ≠ .fuelOut :=
  kloop_no_fuelOut registered (kfuel s) s (by unfold kfuel; omega)

/-! ## Phase view of `Sort` -/

/-- The initial working state of the leveling loop inside `Sort`. -/
def initKS (g : DAG K) : KS K :=
  { outputs := copyOutputs g.outputs, numInputs := copyCounts g.numInputs,
    current := g.nodes.filter (fun n => (alookup n (copyCounts g.numInputs)).getD 0 = 0),
    next := [], levels := [], curGroup := [] }

/-- The leveling (Kahn) phase of `Sort`, independent of any sort options. -/
def kahnRun (g : DAG K) : KOut K := kloop g.nodes (kfuel (initKS g)) (initKS g)

/-- The `only` selection set derived from the resolved options. -/
def onlyOf (o : SortOptions K) : Option (List K) :=
  if o.only.length > 0 then some (dedupKeep o.only) else none

theorem sortWith_char (g : DAG K) (o : SortOptions K) :
    g.sortWith o =
      match findUndefined g.nodes (copyOutputs g.outputs) with
      | some (dep, dependents) => .ret [] (some (.undefined dep dependents))
      | none =>
        match kahnRun g with
        | .nilPanic => .panicked .nilDeref
        | .fuelOut => .panicked .fuelInsufficient
        | .done s =>
          if 0 < unresolvedSum s.numInputs then
            match findSeed s.outputs (isort (invalidIds s.numInputs)) with
            | none => .panicked .invalidState
            | some cur =>
              .ret s.levels (some (.cycle (walkFuel s.outputs (wfuel s.outputs) [] cur)))
          else
            match filterRev g o.withDependencies o.withoutDependencies
                s.levels.reverse (onlyOf o) with
            | .error (id, deps) => .ret [] (some (.unhandled id deps))
            | .ok res => .ret res none := rfl

theorem sortWith_ok_elim {g : DAG K} {o : SortOptions K} {t : List (List K)}
    (h : g.sortWith o = .ret t none) :
    ∃ s : KS K, findUndefined g.nodes (copyOutputs g.outputs) = none ∧
      kahnRun g = .done s ∧ ¬ 0 < unresolvedSum s.numInputs ∧
      filterRev g o.withDependencies o.withoutDependencies s.levels.reverse (onlyOf o)
        = .ok t := by
  rw [sortWith_char] at h
  split at h
  · simp at h
  · split at h
    · simp at h
    · simp at h
    · next s _ =>
      split at h
      · split at h <;> simp at h
      · split at h
        · simp at h
        · next res hres =>
          refine ⟨s, by assumption, by assumption, by assumption, ?_⟩
          rw [hres]
          simp only [SortRes.ret.injEq] at h
          rw [h.1]

theorem sortWith_cycle_elim {g : DAG K} {o : SortOptions K} {t : List (List K)}
    {p : List K} (h : g.sortWith o = .ret t (some (.cycle p))) :
    ∃ (s : KS K) (cur : K), findUndefined g.nodes (copyOutputs g.outputs) = none ∧
      kahnRun g = .done s ∧ 0 < unresolvedSum s.numInputs ∧
      findSeed s.outputs (isort (invalidIds s.numInputs)) = some cur ∧
      t = s.levels ∧ p = walkFuel s.outputs (wfuel s.outputs) [] cur := by
  rw [sortWith_char] at h
  split at h
  · simp at h
  · split at h
    · simp at h
    · simp at h
    · next s _ =>
      split at h
      · split at h
        · simp at h
        · next cur hcur =>
          simp only [SortRes.ret.injEq, Option.some.injEq, SortErr.cycle.injEq] at h
          exact ⟨s, cur, by assumption, by assumption, by assumption, hcur,
            h.1.symm, h.2.symm⟩
      · split at h <;> simp at h

theorem sortWith_undefined_elim {g : DAG K} {o : SortOptions K} {t : List (List K)}
    {n : K} {dl : List K} (h : g.sortWith o = .ret t (some (.undefined n dl))) :
    t = [] ∧ findUndefined g.nodes (copyOutputs g.outputs) = some (n, dl) := by
  rw [sortWith_char] at h
  split at h
  · next dep deps heq =>
    simp only [SortRes.ret.injEq, Option.some.injEq, SortErr.undefined.injEq] at h
    exact ⟨h.1.symm, by rw [heq, h.2.1, h.2.2]⟩
  · split at h
    · simp at h
    · simp at h
    · split at h
      · split at h <;> simp at h
      · split at h <;> simp at h

theorem sortWith_unhandled_elim {g : DAG K} {o : SortOptions K} {t : List (List K)}
    {i : K} {dl : List K} (h : g.sortWith o = .ret t (some (.unhandled i dl))) :
    t = [] ∧ ∃ s : KS K, findUndefined g.nodes (copyOutputs g.outputs) = none ∧
      kahnRun g = .done s ∧ ¬ 0 < unresolvedSum s.numInputs ∧
      filterRev g o.withDependencies o.withoutDependencies s.levels.reverse (onlyOf o)
        = .error (i, dl) := by
  rw [sortWith_char] at h
  split at h
  · simp at h
  · split at h
    · simp at h
    · simp at h
    · next s _ =>
      split at h
      · split at h <;> simp at h
      · cases hf : filterRev g o.withDependencies o.withoutDependencies
            s.levels.reverse (onlyOf o) with
        | error e =>
          obtain ⟨ei, ed⟩ := e
          rw [hf] at h
          dsimp only at h
          simp only [SortRes.ret.injEq, Option.some.injEq, SortErr.unhandled.injEq] at h
          refine ⟨h.1.symm, s, by assumption, by assumption, by assumption, ?_⟩
          rw [hf, h.2.1, h.2.2]
        | ok res =>
          rw [hf] at h
          dsimp only at h
          simp at h

/-! ## Establishing `CountInv` by finite checks -/

theorem inDeg_pos_exists {l : List (K × List K)} {k : K} (h : 0 < inDeg l k) :
    ∃ q ∈ l, k ∈ q.2 := by
  induction l with
  | nil => simp [inDeg] at h
  | cons p l ih =>
    rw [inDeg_cons] at h
    by_cases hp : k ∈ p.2
    · exact ⟨p, List.mem_cons_self _ _, hp⟩
    · rw [if_neg hp] at h
      obtain ⟨q, hq, hk⟩ := ih (by omega)
      exact ⟨q, List.mem_cons_of_mem _ hq, hk⟩

/-- `CountInv` follows from finitely checkable conditions: every stored count
matches the in-degree of its key, and every bucket member has a stored
count. -/
theorem countInv_of_checks {g : DAG K}
    (h1 : ∀ p ∈ g.numInputs, p.2 = (inDeg g.outputs p.1 : Int))
    (h2 : ∀ q ∈ g.outputs, ∀ b ∈ q.2, b ∈ g.numInputs.map Prod.fst) :
    CountInv g := by
  intro k
  unfold DAG.count
  cases hl : alookup k g.numInputs with
  | some v =>
    have hm := alookup_mem hl
    simpa using h1 _ hm
  | none =>
    simp only [Option.getD_none]
    by_contra hne
    have hpos : 0 < inDeg g.outputs k := by
      rcases Nat.eq_zero_or_pos (inDeg g.outputs k) with h0 | h0
      · rw [h0] at hne; simp at hne
      · exact h0
    obtain ⟨q, hq, hk⟩ := inDeg_pos_exists hpos
    have : k ∈ g.numInputs.map Prod.fst := h2 _ hq _ hk
    rw [← alookup_isSome_iff_mem_keys, hl] at this
    simp at this

/-! ## Graph-store mutation sequences -/

/-- One Graph Store mutation (the claim's vocabulary of mutators). -/
inductive Mut (K : Type) where
  | addNode (k : K)
  | addNodes (ks : List K)
  | addEdge (src dst : K)
  | addDependency (sub : K) (deps : List K)
  | add (node : K) (deps : List K) (labels : List String)
  | addLabel (sub : K) (ls : List String)
  | removeEdge (src dst : K)

def applyMut (g : DAG K) : Mut K → DAG K
  | .addNode k => (g.AddNode k).1
  | .addNodes ks => (g.AddNodes ks).1
  | .addEdge a b => (g.AddEdge a b).1
  | .addDependency s ds => (g.AddDependency s ds).1
  | .add n ds ls => (g.Add n { deps := ds, labels := ls }).1
  | .addLabel s ls => g.AddLabel s ls
  | .removeEdge a b => (g.RemoveEdge a b).1

def applyMuts (g : DAG K) (ms : List (Mut K)) : DAG K := ms.foldl applyMut g

theorem mem_aset {p : K × V} {k : K} {v : V} {l : List (K × V)}
    (h : p ∈ aset k v l) : p = (k, v) ∨ p ∈ l := by
  induction l with
  | nil => simpa [aset] using h
  | cons q l ih =>
    by_cases hq : q.1 = k
    · rw [aset, if_pos hq] at h
      rcases List.mem_cons.1 h with h | h
      · exact Or.inl h
      · exact Or.inr (List.mem_cons_of_mem _ h)
    · rw [aset, if_neg hq] at h
      rcases List.mem_cons.1 h with h | h
      · exact Or.inr (h ▸ List.mem_cons_self _ _)
      · rcases ih h with h | h
        · exact Or.inl h
        · exact Or.inr (List.mem_cons_of_mem _ h)

/-! ### `GoodMaps` is preserved by every mutation -/

theorem goodMaps_addNode {g : DAG K} (hg : GoodMaps g) (k : K) :
    GoodMaps (g.AddNode k).1 := by
  unfold DAG.AddNode
  split
  · exact hg
  · dsimp only
    split
    · exact ⟨hg.okeys, hg.obuckets, hg.nkeys⟩
    · refine ⟨keys_aset_nodup _ _ _ hg.okeys, ?_, hg.nkeys⟩
      intro p hp
      rcases mem_aset hp with h | h
      · rw [h]; exact List.nodup_nil
      · exact hg.obuckets p h

theorem goodMaps_addNodes {g : DAG K} (hg : GoodMaps g) (ks : List K) :
    GoodMaps (g.AddNodes ks).1 := by
  induction ks generalizing g with
  | nil => exact hg
  | cons k ks ih =>
    unfold DAG.AddNodes
    cases hk : g.AddNode k with
    | mk g' ok =>
      have hg' : GoodMaps g' := by
        have := goodMaps_addNode hg k
        rw [hk] at this
        exact this
      dsimp only
      cases ok
      · simpa using hg'
      · simpa using ih hg'

theorem goodMaps_addEdge {g : DAG K} (hg : GoodMaps g) (a b : K) :
    GoodMaps (g.AddEdge a b).1 := by
  unfold DAG.AddEdge
  refine ⟨keys_aset_nodup _ _ _ hg.okeys, ?_, keys_aset_nodup _ _ _ hg.nkeys⟩
  intro p hp
  dsimp only at hp
  rcases mem_aset hp with h | h
  · rw [h]
    dsimp only
    have hm : ((alookup a g.outputs).getD []).Nodup := by
      cases hl : alookup a g.outputs with
      | none => simp
      | some m => simpa using hg.obuckets _ (alookup_mem hl)
    split
    · exact hm
    · next hmem =>
      exact (List.nodup_append).2 ⟨hm, List.nodup_singleton b,
        by simpa [List.disjoint_singleton] using hmem⟩
  · exact hg.obuckets p h

theorem goodMaps_addDependency {g : DAG K} (hg : GoodMaps g) (s : K) (ds : List K) :
    GoodMaps (g.AddDependency s ds).1 := by
  induction ds generalizing g with
  | nil => exact hg
  | cons d ds ih =>
    unfold DAG.AddDependency
    cases hk : g.AddEdge d s with
    | mk g' ok =>
      have hg' : GoodMaps g' := by
        have := goodMaps_addEdge hg d s
        rw [hk] at this
        exact this
      dsimp only
      cases ok
      · simpa using hg'
      · simpa using ih hg'

theorem addLabel_fields (g : DAG K) (s : K) (ls : List String) :
    (g.AddLabel s ls).outputs = g.outputs ∧ (g.AddLabel s ls).numInputs = g.numInputs
      ∧ (g.AddLabel s ls).nodes = g.nodes := by
  induction ls generalizing g with
  | nil => exact ⟨rfl, rfl, rfl⟩
  | cons d ls ih => simpa [DAG.AddLabel] using ih _

theorem goodMaps_addLabel {g : DAG K} (hg : GoodMaps g) (s : K) (ls : List String) :
    GoodMaps (g.AddLabel s ls) := by
  obtain ⟨h1, h2, _⟩ := addLabel_fields g s ls
  exact ⟨h1 ▸ hg.okeys, h1 ▸ hg.obuckets, h2 ▸ hg.nkeys⟩

theorem goodMaps_add {g : DAG K} (hg : GoodMaps g) (n : K) (o : AddOpts K) :
    GoodMaps (g.Add n o).1 := by
  unfold DAG.Add
  dsimp only
  exact goodMaps_addLabel (goodMaps_addDependency (goodMaps_addNode hg n) n o.deps) _ _

theorem goodMaps_removeEdge {g : DAG K} (hg : GoodMaps g) (a b : K) :
    GoodMaps (g.RemoveEdge a b).1 := by
  unfold DAG.RemoveEdge
  split
  · unfold DAG.removeEdgeUnchecked
    refine ⟨?_, ?_, keys_aset_nodup _ _ _ hg.nkeys⟩
    · dsimp only
      split
      · exact keys_aset_nodup _ _ _ hg.okeys
      · exact hg.okeys
    · intro p hp
      dsimp only at hp
      split at hp
      · next m hm =>
        rcases mem_aset hp with h | h
        · rw [h]
          exact (hg.obuckets _ (alookup_mem hm)).erase b
        · exact hg.obuckets p h
      · exact hg.obuckets p hp
  · exact hg

theorem goodMaps_applyMut {g : DAG K} (hg : GoodMaps g) (m : Mut K) :
    GoodMaps (applyMut g m) := by
  cases m with
  | addNode k => exact goodMaps_addNode hg k
  | addNodes ks => exact goodMaps_addNodes hg ks
  | addEdge a b => exact goodMaps_addEdge hg a b
  | addDependency s ds => exact goodMaps_addDependency hg s ds
  | add n ds ls => exact goodMaps_add hg n _
  | addLabel s ls => exact goodMaps_addLabel hg s ls
  | removeEdge a b => exact goodMaps_removeEdge hg a b

theorem goodMaps_applyMuts {g : DAG K} (hg : GoodMaps g) (ms : List (Mut K)) :
    GoodMaps (applyMuts g ms) := by
  induction ms generalizing g with
  | nil => exact hg
  | cons m ms ih => exact ih (goodMaps_applyMut hg m)

theorem goodMaps_new : GoodMaps (New ([] : List (GraphOption K))) :=
  ⟨List.nodup_nil, by intro p hp; simp [New, DAG.AddNodes] at hp, List.nodup_nil⟩

/-! ### The count invariant under clean mutation sequences -/

theorem countInv_addNode {g : DAG K} (hc : CountInv g) (k : K) :
    CountInv (g.AddNode k).1 := by
  unfold DAG.AddNode
  split
  · exact hc
  · next hns =>
    dsimp only
    split
    · intro k'
      exact hc k'
    · next hos =>
      intro k'
      unfold DAG.count
      dsimp only
      have hl : alookup k g.outputs = none := by
        rcases ho : alookup k g.outputs with _ | m
        · rfl
        · exact absurd (by rw [ho]; rfl) hos
      have h2 := inDeg_aset_absent hl [] k'
      rw [if_neg (List.not_mem_nil k')] at h2
      rw [h2]
      have := hc k'
      unfold DAG.count at this
      omega

theorem countInv_addNodes {g : DAG K} (hc : CountInv g) (ks : List K) :
    CountInv (g.AddNodes ks).1 := by
  induction ks generalizing g with
  | nil => exact hc
  | cons k ks ih =>
    unfold DAG.AddNodes
    cases hk : g.AddNode k with
    | mk g' ok =>
      have hg' : CountInv g' := by
        have := countInv_addNode hc k
        rw [hk] at this
        exact this
      dsimp only
      cases ok
      · simpa using hg'
      · simpa using ih hg'

theorem countInv_addEdge_fresh {g : DAG K} (hc : CountInv g) {a b : K}
    (hfresh : ¬ g.edge a b) : CountInv (g.AddEdge a b).1 := by
  intro k
  unfold DAG.AddEdge DAG.count
  dsimp only
  unfold DAG.edge DAG.bucket at hfresh
  cases hl : alookup a g.outputs with
  | some m =>
    rw [hl, Option.getD_some] at hfresh
    simp only [Option.getD_some]
    rw [if_neg hfresh]
    by_cases hk : k = b
    · rw [hk, alookup_aset_self, Option.getD_some]
      have hcb := hc b
      unfold DAG.count at hcb
      have h3 := inDeg_aset hl (m ++ [b]) b
      rw [if_neg hfresh, if_pos (by simp)] at h3
      omega
    · rw [alookup_aset_ne _ _ (Ne.symm hk)]
      have hck := hc k
      unfold DAG.count at hck
      have h3 := inDeg_aset hl (m ++ [b]) k
      by_cases hkm : k ∈ m
      · rw [if_pos hkm, if_pos (by simp [hkm])] at h3
        omega
      · rw [if_neg hkm, if_neg (by simp [hkm, hk])] at h3
        omega
  | none =>
    simp only [Option.getD_none, List.not_mem_nil, if_false, List.nil_append]
    by_cases hk : k = b
    · rw [hk, alookup_aset_self, Option.getD_some]
      have hcb := hc b
      unfold DAG.count at hcb
      have h3 := inDeg_aset_absent hl [b] b
      rw [if_pos (by simp)] at h3
      omega
    · rw [alookup_aset_ne _ _ (Ne.symm hk)]
      have hck := hc k
      unfold DAG.count at hck
      have h3 := inDeg_aset_absent hl [b] k
      rw [if_neg (by simp [hk])] at h3
      omega

theorem countInv_removeEdge_present {g : DAG K} (hg : GoodMaps g) (hc : CountInv g)
    {a b : K} (hedge : g.edge a b) : CountInv (g.RemoveEdge a b).1 := by
  unfold DAG.edge DAG.bucket at hedge
  cases hl : alookup a g.outputs with
  | none => rw [hl] at hedge; simp at hedge
  | some m =>
    rw [hl, Option.getD_some] at hedge
    have hnod : m.Nodup := hg.obuckets _ (alookup_mem hl)
    intro k
    unfold DAG.RemoveEdge
    rw [if_pos (by rw [hl]; rfl)]
    unfold DAG.removeEdgeUnchecked DAG.count
    dsimp only
    rw [hl]
    dsimp only
    by_cases hk : k = b
    · rw [hk, alookup_aset_self, Option.getD_some]
      have hcb := hc b
      unfold DAG.count at hcb
      have h3 := inDeg_aset hl (m.erase b) b
      rw [if_pos hedge, if_neg (List.Nodup.not_mem_erase hnod)] at h3
      omega
    · rw [alookup_aset_ne _ _ (Ne.symm hk)]
      have hck := hc k
      unfold DAG.count at hck
      have h3 := inDeg_aset hl (m.erase b) k
      have hmem : k ∈ m.erase b ↔ k ∈ m := List.mem_erase_of_ne hk
      by_cases hkm : k ∈ m
      · rw [if_pos hkm, if_pos (hmem.2 hkm)] at h3
        omega
      · rw [if_neg hkm, if_neg (fun hx => hkm (hmem.1 hx))] at h3
        omega

theorem countInv_addLabel {g : DAG K} (hc : CountInv g) (s : K) (ls : List String) :
    CountInv (g.AddLabel s ls) := by
  obtain ⟨h1, h2, _⟩ := addLabel_fields g s ls
  intro k
  unfold DAG.count
  rw [h1, h2]
  exact hc k

/-- Precondition making one `AddDependency` call clean: each edge inserted is
absent at its insertion time. -/
def OkDeps (g : DAG K) (s : K) : List K → Prop
  | [] => True
  | d :: rest => ¬ g.edge d s ∧ OkDeps (g.AddEdge d s).1 s rest

/-- Precondition making one mutation clean: `AddEdge` only inserts absent
edges; `RemoveEdge` only removes present ones. -/
def OkMut (g : DAG K) : Mut K → Prop
  | .addNode _ => True
  | .addNodes _ => True
  | .addEdge a b => ¬ g.edge a b
  | .addDependency s ds => OkDeps g s ds
  | .add n ds _ => OkDeps (g.AddNode n).1 n ds
  | .addLabel _ _ => True
  | .removeEdge a b => g.edge a b

def OkSeq (g : DAG K) : List (Mut K) → Prop
  | [] => True
  | m :: rest => OkMut g m ∧ OkSeq (applyMut g m) rest

theorem countInv_addDependency {g : DAG K} (hc : CountInv g) {s : K} {ds : List K}
    (hok : OkDeps g s ds) : CountInv (g.AddDependency s ds).1 := by
  induction ds generalizing g with
  | nil => exact hc
  | cons d ds ih =>
    unfold DAG.AddDependency
    obtain ⟨hfresh, hrest⟩ := hok
    cases hk : g.AddEdge d s with
    | mk g' ok =>
      have hg' : CountInv g' := by
        have := countInv_addEdge_fresh hc hfresh
        rw [hk] at this
        exact this
      have hrest' : OkDeps g' s ds := by rw [hk] at hrest; exact hrest
      dsimp only
      cases ok
      · simpa using hg'
      · simpa using ih hg' hrest'

theorem countInv_applyMut {g : DAG K} (hg : GoodMaps g) (hc : CountInv g)
    {m : Mut K} (hok : OkMut g m) : CountInv (applyMut g m) := by
  cases m with
  | addNode k => exact countInv_addNode hc k
  | addNodes ks => exact countInv_addNodes hc ks
  | addEdge a b => exact countInv_addEdge_fresh hc hok
  | addDependency s ds => exact countInv_addDependency hc hok
  | add n ds ls =>
    unfold applyMut DAG.Add
    dsimp only
    exact countInv_addLabel (countInv_addDependency (countInv_addNode hc n) hok) _ _
  | addLabel s ls => exact countInv_addLabel hc s ls
  | removeEdge a b => exact countInv_removeEdge_present hg hc hok

theorem countInv_applyMuts {g : DAG K} (hg : GoodMaps g) (hc : CountInv g)
    {ms : List (Mut K)} (hok : OkSeq g ms) : CountInv (applyMuts g ms) := by
  induction ms generalizing g with
  | nil => exact hc
  | cons m ms ih =>
    exact ih (goodMaps_applyMut hg m) (countInv_applyMut hg hc hok.1) hok.2

theorem countInv_new : CountInv (New ([] : List (GraphOption K))) := by
  intro k
  simp [New, DAG.AddNodes, DAG.count, alookup, inDeg]

/-! ## Specification of the edge-relaxation inner loop -/

/-- Bucket of `k` in a raw outputs map. -/
def bucketOf (outputs : List (K × List K)) (k : K) : List K := (alookup k outputs).getD []

theorem keys_aset_present {l : List (K × V)} {k : K} (h : (alookup k l).isSome)
    (v : V) : (aset k v l).map Prod.fst = l.map Prod.fst := by
  rw [keys_aset, if_pos ((alookup_isSome_iff_mem_keys k l).1 h)]

structure RelaxPre (nid : K) (ms : List K) (p : KPart K) : Prop where
  nodup : ms.Nodup
  sub : ∀ m ∈ ms, m ∈ bucketOf p.outputs nid
  okeys : (p.outputs.map Prod.fst).Nodup
  obuckets : ∀ q ∈ p.outputs, q.2.Nodup
  nkeys : (p.numInputs.map Prod.fst).Nodup
  count_eq : ∀ k : K, (alookup k p.numInputs).getD 0 = (inDeg p.outputs k : Int)

structure RelaxPost (reg : List K) (nid : K) (ms : List K) (p p' : KPart K) : Prop where
  ms_reg : ∀ m ∈ ms, m ∈ reg
  okeys : (p'.outputs.map Prod.fst).Nodup
  obuckets : ∀ q ∈ p'.outputs, q.2.Nodup
  nkeys : (p'.numInputs.map Prod.fst).Nodup
  keys_eq : p'.outputs.map Prod.fst = p.outputs.map Prod.fst
  count_eq : ∀ k : K, (alookup k p'.numInputs).getD 0 = (inDeg p'.outputs k : Int)
  bucket_nid : ∀ k : K, k ∈ bucketOf p'.outputs nid ↔
    (k ∈ bucketOf p.outputs nid ∧ k ∉ ms)
  bucket_other : ∀ a : K, a ≠ nid → bucketOf p'.outputs a = bucketOf p.outputs a
  cnt_other : ∀ k : K, k ∉ ms → alookup k p'.numInputs = alookup k p.numInputs
  cnt_ms : ∀ m ∈ ms,
    (alookup m p'.numInputs).getD 0 = (alookup m p.numInputs).getD 0 - 1
  next_mem : ∀ k : K, k ∈ p'.next ↔
    k ∈ p.next ∨ (k ∈ ms ∧ (alookup k p'.numInputs).getD 0 = 0)

theorem relax_spec {reg : List K} {nid : K} {ms : List K} :
    ∀ {p p' : KPart K}, RelaxPre nid ms p → relaxList reg nid ms p = some p' →
      RelaxPost reg nid ms p p' := by
  induction ms with
  | nil =>
    intro p p' _ h
    simp only [relaxList, Option.some.injEq] at h
    subst h
    exact ⟨by simp, ‹RelaxPre nid [] p›.okeys, ‹RelaxPre nid [] p›.obuckets,
      ‹RelaxPre nid [] p›.nkeys, rfl, ‹RelaxPre nid [] p›.count_eq,
      by simp, fun _ _ => rfl, fun _ _ => rfl, by simp, by simp⟩
  | cons m rest ih =>
    intro p p' pre h
    have hmb : m ∈ bucketOf p.outputs nid := pre.sub m (List.mem_cons_self _ _)
    obtain ⟨b, hb⟩ : ∃ b, alookup nid p.outputs = some b := by
      cases hbl : alookup nid p.outputs with
      | none => unfold bucketOf at hmb; rw [hbl] at hmb; simp at hmb
      | some b => exact ⟨b, rfl⟩
    have hbmem : m ∈ b := by unfold bucketOf at hmb; rw [hb] at hmb; simpa using hmb
    have hbnod : b.Nodup := pre.obuckets _ (alookup_mem hb)
    simp only [relaxList, hb] at h
    by_cases hm : m ∈ reg
    · rw [if_pos hm] at h
      have hnodr : rest.Nodup := by
        have := pre.nodup
        simp only [List.nodup_cons] at this
        exact this.2
      have hmr : m ∉ rest := by
        have := pre.nodup
        simp only [List.nodup_cons] at this
        exact this.1
      set c := (alookup m p.numInputs).getD 0 with hcdef
      set outs1 := aset nid (b.erase m) p.outputs with houts1
      set ni1 := aset m (c - 1) p.numInputs with hni1
      have hbprev : bucketOf outs1 nid = b.erase m := by
        unfold bucketOf
        rw [houts1, alookup_aset_self]
        rfl
      have hcnt1self : (alookup m ni1).getD 0 = c - 1 := by
        rw [hni1, alookup_aset_self]; rfl
      have hcnt1other : ∀ k, k ≠ m → alookup k ni1 = alookup k p.numInputs := by
        intro k hk
        rw [hni1, alookup_aset_ne _ _ (Ne.symm hk)]
      have hkeys1 : outs1.map Prod.fst = p.outputs.map Prod.fst :=
        keys_aset_present (by rw [hb]; rfl) _
      have pre' : RelaxPre nid rest
          { outputs := outs1, numInputs := ni1,
            next := if (alookup m ni1).getD 0 = 0 then p.next ++ [m] else p.next } := by
        refine ⟨hnodr, ?_, ?_, ?_, ?_, ?_⟩
        · intro k hk
          dsimp only
          rw [hbprev]
          have hkb : k ∈ b := by
            have := pre.sub k (List.mem_cons_of_mem _ hk)
            unfold bucketOf at this
            rw [hb] at this
            simpa using this
          exact (List.Nodup.mem_erase_iff hbnod).2
            ⟨fun he => hmr (he ▸ hk), hkb⟩
        · dsimp only
          rw [houts1]
          exact hkeys1 ▸ pre.okeys
        · intro q hq
          dsimp only at hq
          rw [houts1] at hq
          rcases mem_aset hq with hqe | hqe
          · rw [hqe]
            exact hbnod.erase m
          · exact pre.obuckets q hqe
        · dsimp only
          rw [hni1]
          exact keys_aset_nodup _ _ _ pre.nkeys
        · intro k
          dsimp only
          by_cases hk : k = m
          · rw [hk, hcnt1self]
            have hde := inDeg_aset hb (b.erase m) m
            rw [if_pos hbmem, if_neg (List.Nodup.not_mem_erase hbnod)] at hde
            have hpc := pre.count_eq m
            rw [← hcdef] at hpc
            rw [houts1]
            omega
          · rw [hcnt1other k hk]
            have hde := inDeg_aset hb (b.erase m) k
            have hmeq : k ∈ b.erase m ↔ k ∈ b := List.mem_erase_of_ne hk
            have := pre.count_eq k
            rw [houts1]
            by_cases hkb : k ∈ b
            · rw [if_pos hkb, if_pos (hmeq.2 hkb)] at hde
              omega
            · rw [if_neg hkb, if_neg (fun hx => hkb (hmeq.1 hx))] at hde
              omega
      have post := ih pre' h
      -- assemble
      have hb1 : bucketOf p'.outputs nid = (b.erase m).filter (fun k => !decide (k ∈ rest))
          ∨ True := Or.inr trivial
      refine ⟨?_, post.okeys, post.obuckets, post.nkeys, ?_, post.count_eq, ?_, ?_, ?_, ?_, ?_⟩
      · intro k hk
        rcases List.mem_cons.1 hk with hk | hk
        · exact hk ▸ hm
        · exact post.ms_reg k hk
      · rw [post.keys_eq]
        dsimp only
        exact hkeys1
      · intro k
        rw [post.bucket_nid k]
        dsimp only
        rw [hbprev]
        constructor
        · rintro ⟨hk1, hk2⟩
          have := (List.Nodup.mem_erase_iff hbnod).1 hk1
          refine ⟨by unfold bucketOf; rw [hb]; simpa using this.2, ?_⟩
          simp only [List.mem_cons, not_or]
          exact ⟨this.1, hk2⟩
        · rintro ⟨hk1, hk2⟩
          simp only [List.mem_cons, not_or] at hk2
          have hkb : k ∈ b := by unfold bucketOf at hk1; rw [hb] at hk1; simpa using hk1
          exact ⟨(List.Nodup.mem_erase_iff hbnod).2 ⟨hk2.1, hkb⟩, hk2.2⟩
      · intro a ha
        rw [post.bucket_other a ha]
        dsimp only
        unfold bucketOf
        rw [houts1, alookup_aset_ne _ _ (fun he => ha he.symm)]
      · intro k hk
        simp only [List.mem_cons, not_or] at hk
        rw [post.cnt_other k hk.2]
        dsimp only
        exact hcnt1other k hk.1
      · intro k hk
        rcases List.mem_cons.1 hk with hk | hk
        · subst hk
          rw [post.cnt_other k hmr]
          rw [hcnt1self]
        · rw [post.cnt_ms k hk, hcnt1other k (fun he => hmr (he ▸ hk))]
      · intro k
        rw [post.next_mem k]
        dsimp only
        by_cases hz : (alookup m ni1).getD 0 = 0
        · rw [if_pos hz]
          constructor
          · rintro (hk | hk)
            · rcases List.mem_append.1 hk with hk | hk
              · exact Or.inl hk
              · simp only [List.mem_singleton] at hk
                subst hk
                refine Or.inr ⟨List.mem_cons_self _ _, ?_⟩
                rw [post.cnt_other k hmr]
                exact hz
            · exact Or.inr ⟨List.mem_cons_of_mem _ hk.1, hk.2⟩
          · rintro (hk | ⟨hk1, hk2⟩)
            · exact Or.inl (List.mem_append.2 (Or.inl hk))
            · rcases List.mem_cons.1 hk1 with hk1 | hk1
              · exact Or.inl (List.mem_append.2 (Or.inr (by simp [hk1])))
              · exact Or.inr ⟨hk1, hk2⟩
        · rw [if_neg hz]
          constructor
          · rintro (hk | hk)
            · exact Or.inl hk
            · exact Or.inr ⟨List.mem_cons_of_mem _ hk.1, hk.2⟩
          · rintro (hk | ⟨hk1, hk2⟩)
            · exact Or.inl hk
            · rcases List.mem_cons.1 hk1 with hk1 | hk1
              · subst hk1
                rw [post.cnt_other k hmr] at hk2
                exact absurd hk2 hz
              · exact Or.inr ⟨hk1, hk2⟩
    · rw [if_neg hm] at h
      exact absurd h (by simp)

/-! ## Group membership -/

/-- `k` is a member of group `i` of the level list `gs`. -/
def MemGrp : List (List K) → Nat → K → Prop
  | [], _, _ => False
  | g :: _, 0, k => k ∈ g
  | _ :: gs, i + 1, k => MemGrp gs i k

theorem memGrp_iff_get {gs : List (List K)} {i : Nat} {k : K} :
    MemGrp gs i k ↔ ∃ h : i < gs.length, k ∈ gs.get ⟨i, h⟩ := by
  induction gs generalizing i with
  | nil => simp [MemGrp]
  | cons g gs ih =>
    cases i with
    | zero => simp [MemGrp]
    | succ i =>
      rw [MemGrp, ih]
      constructor
      · rintro ⟨h, hk⟩
        exact ⟨by simpa using Nat.succ_lt_succ h, hk⟩
      · rintro ⟨h, hk⟩
        exact ⟨by simpa using Nat.lt_of_succ_lt_succ h, hk⟩

theorem memGrp_lt_length {gs : List (List K)} {i : Nat} {k : K}
    (h : MemGrp gs i k) : i < gs.length := (memGrp_iff_get.1 h).1

theorem memGrp_append_iff {gs : List (List K)} {g : List K} {i : Nat} {k : K} :
    MemGrp (gs ++ [g]) i k ↔ MemGrp gs i k ∨ (i = gs.length ∧ k ∈ g) := by
  induction gs generalizing i with
  | nil =>
    cases i with
    | zero => simp [MemGrp]
    | succ i => cases i <;> simp [MemGrp]
  | cons g0 gs ih =>
    cases i with
    | zero => simp [MemGrp]
    | succ i =>
      show MemGrp (gs ++ [g]) i k ↔ MemGrp gs i k ∨ (i + 1 = (g0 :: gs).length ∧ k ∈ g)
      rw [ih]
      simp only [List.length_cons]
      constructor
      · rintro (h | ⟨h1, h2⟩)
        · exact Or.inl h
        · exact Or.inr ⟨by omega, h2⟩
      · rintro (h | ⟨h1, h2⟩)
        · exact Or.inl h
        · exact Or.inr ⟨by omega, h2⟩

theorem mem_flatten_iff_memGrp {gs : List (List K)} {k : K} :
    k ∈ gs.flatten ↔ ∃ i, MemGrp gs i k := by
  induction gs with
  | nil => simp [MemGrp]
  | cons g gs ih =>
    simp only [List.flatten_cons, List.mem_append, ih]
    constructor
    · rintro (hk | ⟨i, hi⟩)
      · exact ⟨0, hk⟩
      · exact ⟨i + 1, hi⟩
    · rintro ⟨i, hi⟩
      cases i with
      | zero => exact Or.inl hi
      | succ i => exact Or.inr ⟨i, hi⟩

/-! ## The loop invariant -/

/-- The invariant preserved by each iteration of the leveling loop, against
the registered node list `reg` (= `g.nodes`) and the original edge map
`orig` (= the snapshot taken at the top of `Sort`).  The group list
`s.levels ++ [s.curGroup]` records which node was leveled at which depth. -/
structure InvCore (reg : List K) (orig : List (K × List K)) (s : KS K) : Prop where
  okeys : (s.outputs.map Prod.fst).Nodup
  obuckets : ∀ p ∈ s.outputs, p.2.Nodup
  nkeys : (s.numInputs.map Prod.fst).Nodup
  srcs_reg : ∀ k : K, (alookup k s.outputs).isSome → k ∈ reg
  count_eq : ∀ k : K, (alookup k s.numInputs).getD 0 = (inDeg s.outputs k : Int)
  proc_empty : ∀ a ∈ s.levels.flatten ++ s.curGroup, bucketOf s.outputs a = []
  unproc_intact : ∀ a : K, a ∉ s.levels.flatten ++ s.curGroup →
    bucketOf s.outputs a = bucketOf orig a
  zero_done : ∀ k ∈ s.levels.flatten ++ s.curGroup ++ s.current ++ s.next,
    (alookup k s.numInputs).getD 0 = 0
  mem_reg : ∀ k ∈ s.levels.flatten ++ s.curGroup ++ s.current ++ s.next, k ∈ reg
  proc_out_reg : ∀ a ∈ s.levels.flatten ++ s.curGroup, ∀ b ∈ bucketOf orig a, b ∈ reg
  reg_status : ∀ k ∈ reg,
    (k ∈ s.levels.flatten ++ s.curGroup ++ s.current ++ s.next) ∨
      0 < (alookup k s.numInputs).getD 0
  cur_fresh : ∀ k ∈ s.current, k ∉ s.levels.flatten ∧ k ∉ s.next
  next_fresh : ∀ k ∈ s.next, k ∉ s.levels.flatten ∧ k ∉ s.curGroup ∧ k ∉ s.current
  ord_current : ∀ a b : K, b ∈ bucketOf orig a → b ∈ s.current →
    ∃ i, MemGrp s.levels i a
  ord_next : ∀ a b : K, b ∈ bucketOf orig a → b ∈ s.next →
    a ∈ s.levels.flatten ++ s.curGroup
  ord_groups : ∀ a b : K, b ∈ bucketOf orig a → ∀ i j : Nat,
    MemGrp (s.levels ++ [s.curGroup]) i a → MemGrp (s.levels ++ [s.curGroup]) j b →
      i < j
  grp_once : ∀ (k : K) (i j : Nat),
    MemGrp (s.levels ++ [s.curGroup]) i k → MemGrp (s.levels ++ [s.curGroup]) j k →
      i = j
  grp_nonempty : ∀ grp ∈ s.levels, grp ≠ []

structure Inv (reg : List K) (orig : List (K × List K)) (s : KS K) extends
    InvCore reg orig s : Prop where
  next_of_cur : s.current = [] → s.next = []
  cur_or_grp : s.current ≠ [] ∨ s.curGroup = []

/-! ## Invariant preservation through one loop iteration -/

theorem inv_step {reg : List K} {orig : List (K × List K)} {s : KS K}
    {n : K} {rest : List K} {p : KPart K}
    (hI : InvCore reg orig s) (hcur : s.current = n :: rest)
    (hrel : relaxList reg n ((alookup n s.outputs).getD [])
      { outputs := s.outputs, numInputs := s.numInputs, next := s.next } = some p) :
    InvCore reg orig
      { outputs := p.outputs, numInputs := p.numInputs, current := rest,
        next := p.next, levels := s.levels, curGroup := s.curGroup ++ [n] } := by
  set ms := (alookup n s.outputs).getD [] with hms
  have pre : RelaxPre n ms
      { outputs := s.outputs, numInputs := s.numInputs, next := s.next } := by
    refine ⟨?_, fun m hm => hm, hI.okeys, hI.obuckets, hI.nkeys, hI.count_eq⟩
    rw [hms]
    cases hb : alookup n s.outputs with
    | none => simp
    | some b => simpa using hI.obuckets _ (alookup_mem hb)
  have post := relax_spec pre hrel
  have cnt_other : ∀ k, k ∉ ms → alookup k p.numInputs = alookup k s.numInputs :=
    post.cnt_other
  have pnext_mem : ∀ k, k ∈ p.next ↔
      k ∈ s.next ∨ (k ∈ ms ∧ (alookup k p.numInputs).getD 0 = 0) := post.next_mem
  have pbucket_nid : ∀ k, k ∈ bucketOf p.outputs n ↔
      (k ∈ bucketOf s.outputs n ∧ k ∉ ms) := post.bucket_nid
  have pbucket_other : ∀ a, a ≠ n → bucketOf p.outputs a = bucketOf s.outputs a :=
    post.bucket_other
  have pkeys : p.outputs.map Prod.fst = s.outputs.map Prod.fst := post.keys_eq
  have pcnt_ms : ∀ m ∈ ms,
      (alookup m p.numInputs).getD 0 = (alookup m s.numInputs).getD 0 - 1 := post.cnt_ms
  have pms_reg : ∀ m ∈ ms, m ∈ reg := post.ms_reg
  have hn_cur : n ∈ s.current := by rw [hcur]; exact List.mem_cons_self _ _
  have hrest_cur : ∀ k ∈ rest, k ∈ s.current := by
    intro k hk; rw [hcur]; exact List.mem_cons_of_mem _ hk
  have hzero : ∀ k, (k ∈ s.levels.flatten ∨ k ∈ s.curGroup ∨ k ∈ s.current ∨ k ∈ s.next) →
      (alookup k s.numInputs).getD 0 = 0 := by
    intro k hk
    apply hI.zero_done
    simp only [List.mem_append]
    tauto
  have hregmem : ∀ k, (k ∈ s.levels.flatten ∨ k ∈ s.curGroup ∨ k ∈ s.current ∨ k ∈ s.next) →
      k ∈ reg := by
    intro k hk
    apply hI.mem_reg
    simp only [List.mem_append]
    tauto
  have hms_pos : ∀ m ∈ ms, 0 < (alookup m s.numInputs).getD 0 := by
    intro m hm
    have hd : 0 < inDeg s.outputs m := inDeg_pos_of_mem (a := n) hm
    have := hI.count_eq m
    omega
  have hms_not : ∀ m ∈ ms,
      ¬(m ∈ s.levels.flatten ∨ m ∈ s.curGroup ∨ m ∈ s.current ∨ m ∈ s.next) := by
    intro m hm hmem
    have h1 := hzero m hmem
    have h2 := hms_pos m hm
    omega
  have hcnt_keep : ∀ k,
      (k ∈ s.levels.flatten ∨ k ∈ s.curGroup ∨ k ∈ s.current ∨ k ∈ s.next) →
      (alookup k p.numInputs).getD 0 = 0 := by
    intro k hk
    have hk0 := hzero k hk
    have hnot : k ∉ ms := fun hm => hms_not k hm hk
    rw [cnt_other k hnot]
    exact hk0
  have hG : ∀ (i : Nat) (k : K), MemGrp (s.levels ++ [s.curGroup ++ [n]]) i k ↔
      (MemGrp (s.levels ++ [s.curGroup]) i k ∨ (i = s.levels.length ∧ k = n)) := by
    intro i k
    rw [memGrp_append_iff, memGrp_append_iff]
    simp only [List.mem_append, List.mem_singleton]
    tauto
  refine ⟨post.okeys, post.obuckets, post.nkeys, ?_, post.count_eq,
    ?_, ?_, ?_, ?_, ?_, ?_, ?_, ?_, ?_, ?_, ?_, ?_, hI.grp_nonempty⟩
  -- srcs_reg
  · intro k hk
    apply hI.srcs_reg
    rw [alookup_isSome_iff_mem_keys] at hk ⊢
    rw [← pkeys]
    exact hk
  -- proc_empty
  · intro a ha
    dsimp only at ha ⊢
    by_cases han : a = n
    · subst han
      refine List.eq_nil_iff_forall_not_mem.2 (fun b hb => ?_)
      have := (pbucket_nid b).1 hb
      exact this.2 this.1
    · rw [pbucket_other a han]
      apply hI.proc_empty
      simp only [List.mem_append] at ha ⊢
      rcases ha with ha | (ha | ha)
      · exact Or.inl ha
      · exact Or.inr ha
      · simp only [List.mem_singleton] at ha
        exact absurd ha han
  -- unproc_intact
  · intro a ha
    dsimp only at ha ⊢
    have han : a ≠ n := by
      intro he
      subst he
      exact ha (List.mem_append.2 (Or.inr (List.mem_append.2 (Or.inr (by simp)))))
    rw [pbucket_other a han]
    apply hI.unproc_intact
    intro hmem
    apply ha
    rcases List.mem_append.1 hmem with h | h
    · exact List.mem_append.2 (Or.inl h)
    · exact List.mem_append.2 (Or.inr (List.mem_append.2 (Or.inl h)))
  -- zero_done
  · intro k hk
    dsimp only at hk ⊢
    simp only [List.mem_append, List.mem_singleton] at hk
    rcases hk with ((hk | (hk | hk)) | hk) | hk
    · exact hcnt_keep k (Or.inl hk)
    · exact hcnt_keep k (Or.inr (Or.inl hk))
    · subst hk; exact hcnt_keep k (Or.inr (Or.inr (Or.inl hn_cur)))
    · exact hcnt_keep k (Or.inr (Or.inr (Or.inl (hrest_cur k hk))))
    · rcases (pnext_mem k).1 hk with hk | hk
      · exact hcnt_keep k (Or.inr (Or.inr (Or.inr hk)))
      · exact hk.2
  -- mem_reg
  · intro k hk
    dsimp only at hk
    simp only [List.mem_append, List.mem_singleton] at hk
    rcases hk with ((hk | (hk | hk)) | hk) | hk
    · exact hregmem k (Or.inl hk)
    · exact hregmem k (Or.inr (Or.inl hk))
    · subst hk; exact hregmem k (Or.inr (Or.inr (Or.inl hn_cur)))
    · exact hregmem k (Or.inr (Or.inr (Or.inl (hrest_cur k hk))))
    · rcases (pnext_mem k).1 hk with hk | hk
      · exact hregmem k (Or.inr (Or.inr (Or.inr hk)))
      · exact pms_reg k hk.1
  -- proc_out_reg
  · intro a ha b hb
    dsimp only at ha
    simp only [List.mem_append, List.mem_singleton] at ha
    rcases ha with ha | (ha | ha)
    · exact hI.proc_out_reg a (List.mem_append.2 (Or.inl ha)) b hb
    · exact hI.proc_out_reg a (List.mem_append.2 (Or.inr ha)) b hb
    · subst ha
      by_cases hpr : a ∈ s.levels.flatten ++ s.curGroup
      · exact hI.proc_out_reg a hpr b hb
      · have : bucketOf s.outputs a = bucketOf orig a := hI.unproc_intact a hpr
        rw [← this] at hb
        exact pms_reg b (by rw [hms]; exact hb)
  -- reg_status
  · intro k hk
    dsimp only
    rcases hI.reg_status k hk with hmem | hpos
    · left
      simp only [List.mem_append, List.mem_singleton] at hmem ⊢
      rcases hmem with ((h | h) | h) | h
      · exact Or.inl (Or.inl (Or.inl h))
      · exact Or.inl (Or.inl (Or.inr (Or.inl h)))
      · rw [hcur] at h
        rcases List.mem_cons.1 h with h | h
        · exact Or.inl (Or.inl (Or.inr (Or.inr h)))
        · exact Or.inl (Or.inr h)
      · exact Or.inr ((pnext_mem k).2 (Or.inl h))
    · by_cases hkm : k ∈ ms
      · have hdec := pcnt_ms k hkm
        by_cases hz : (alookup k p.numInputs).getD 0 = 0
        · left
          simp only [List.mem_append]
          exact Or.inr ((pnext_mem k).2 (Or.inr ⟨hkm, hz⟩))
        · right
          omega
      · right
        rw [cnt_other k hkm]
        exact hpos
  -- cur_fresh
  · intro k hk
    dsimp only at hk ⊢
    have hkc := hrest_cur k hk
    obtain ⟨hf, hn⟩ := hI.cur_fresh k hkc
    refine ⟨hf, ?_⟩
    intro hkp
    rcases (pnext_mem k).1 hkp with h | h
    · exact hn h
    · exact hms_not k h.1 (Or.inr (Or.inr (Or.inl hkc)))
  -- next_fresh
  · intro k hk
    dsimp only at hk ⊢
    rcases (pnext_mem k).1 hk with h | h
    · obtain ⟨h1, h2, h3⟩ := hI.next_fresh k h
      refine ⟨h1, ?_, ?_⟩
      · intro hc
        rcases List.mem_append.1 hc with hc | hc
        · exact h2 hc
        · simp only [List.mem_singleton] at hc
          subst hc
          exact h3 hn_cur
      · intro hc
        exact h3 (hrest_cur k hc)
    · have hnot := hms_not k h.1
      refine ⟨fun hc => hnot (Or.inl hc), ?_, ?_⟩
      · intro hc
        rcases List.mem_append.1 hc with hc | hc
        · exact hnot (Or.inr (Or.inl hc))
        · simp only [List.mem_singleton] at hc
          subst hc
          exact hnot (Or.inr (Or.inr (Or.inl hn_cur)))
      · intro hc
        exact hnot (Or.inr (Or.inr (Or.inl (hrest_cur k hc))))
  -- ord_current
  · intro a b hedge hb
    dsimp only at hb ⊢
    exact hI.ord_current a b hedge (hrest_cur b hb)
  -- ord_next
  · intro a b hedge hb
    dsimp only at hb ⊢
    rcases (pnext_mem b).1 hb with h | h
    · have := hI.ord_next a b hedge h
      rcases List.mem_append.1 this with h2 | h2
      · exact List.mem_append.2 (Or.inl h2)
      · exact List.mem_append.2 (Or.inr (List.mem_append.2 (Or.inl h2)))
    · by_contra hcontra
      have han : a ≠ n := by
        intro he
        subst he
        exact hcontra (List.mem_append.2 (Or.inr (List.mem_append.2 (Or.inr (by simp)))))
      have haold : a ∉ s.levels.flatten ++ s.curGroup := by
        intro hmem
        apply hcontra
        rcases List.mem_append.1 hmem with h2 | h2
        · exact List.mem_append.2 (Or.inl h2)
        · exact List.mem_append.2 (Or.inr (List.mem_append.2 (Or.inl h2)))
      have hintact := hI.unproc_intact a haold
      have hbp : b ∈ bucketOf p.outputs a := by
        rw [pbucket_other a han, hintact]
        exact hedge
      have hdeg : 0 < inDeg p.outputs b := inDeg_pos_of_mem (a := a) hbp
      have := post.count_eq b
      have := h.2
      omega
  -- ord_groups
  · intro a b hedge i j hi hj
    dsimp only at hi hj
    rw [hG] at hi hj
    rcases hi with hi | ⟨hiL, hia⟩
    · rcases hj with hj | ⟨hjL, hjb⟩
      · exact hI.ord_groups a b hedge i j hi hj
      · subst hjL
        subst hjb
        obtain ⟨i0, hi0⟩ := hI.ord_current a b hedge hn_cur
        have hi0' : MemGrp (s.levels ++ [s.curGroup]) i0 a := by
          rw [memGrp_append_iff]
          exact Or.inl hi0
        have := hI.grp_once a i i0 hi hi0'
        subst this
        exact memGrp_lt_length hi0
    · subst hiL
      subst hia
      rcases hj with hj | ⟨hjL, hjb⟩
      · by_cases hpr : a ∈ s.levels.flatten ++ s.curGroup
        · rcases List.mem_append.1 hpr with hf | hcg
          · exact absurd hf (hI.cur_fresh a hn_cur).1
          · have haL : MemGrp (s.levels ++ [s.curGroup]) s.levels.length a := by
              rw [memGrp_append_iff]
              exact Or.inr ⟨rfl, hcg⟩
            have := hI.ord_groups a b hedge s.levels.length j haL hj
            have hjlt := memGrp_lt_length hj
            simp only [List.length_append, List.length_singleton] at hjlt
            omega
        · have hintact := hI.unproc_intact a hpr
          have hbs : b ∈ bucketOf s.outputs a := by rw [hintact]; exact hedge
          have hdeg : 0 < inDeg s.outputs b :=
            inDeg_pos_of_mem (a := a) hbs
          have hzb : (alookup b s.numInputs).getD 0 = 0 := by
            apply hzero
            have hbf : b ∈ s.levels.flatten ++ s.curGroup := by
              rw [memGrp_append_iff] at hj
              rcases hj with hj | ⟨_, hj⟩
              · exact List.mem_append.2 (Or.inl (mem_flatten_iff_memGrp.2 ⟨j, hj⟩))
              · exact List.mem_append.2 (Or.inr hj)
            rcases List.mem_append.1 hbf with h2 | h2
            · exact Or.inl h2
            · exact Or.inr (Or.inl h2)
          have := hI.count_eq b
          omega
      · exfalso
        rw [hjb] at hedge
        obtain ⟨i0, hi0⟩ := hI.ord_current a a hedge hn_cur
        exact (hI.cur_fresh a hn_cur).1 (mem_flatten_iff_memGrp.2 ⟨i0, hi0⟩)
  -- grp_once
  · intro k i j hi hj
    dsimp only at hi hj
    rw [hG] at hi hj
    have hnold : ∀ i2, MemGrp (s.levels ++ [s.curGroup]) i2 n → i2 = s.levels.length := by
      intro i2 h2
      rw [memGrp_append_iff] at h2
      rcases h2 with h2 | ⟨h2, _⟩
      · exact absurd (mem_flatten_iff_memGrp.2 ⟨i2, h2⟩) (hI.cur_fresh n hn_cur).1
      · exact h2
    rcases hi with hi | ⟨hiL, hik⟩
    · rcases hj with hj | ⟨hjL, hjk⟩
      · exact hI.grp_once k i j hi hj
      · subst hjk
        rw [hnold i hi, hjL]
    · subst hik
      rcases hj with hj | ⟨hjL, _⟩
      · rw [hnold j hj, hiL]
      · rw [hiL, hjL]

/-! ## Invariant across frontier swaps and the whole loop -/

theorem memGrp_single_nil {i : Nat} {k : K} : ¬ MemGrp [([] : List K)] i k := by
  cases i with
  | zero => simp [MemGrp]
  | succ i => cases i <;> simp [MemGrp]

theorem inv_swap {reg : List K} {orig : List (K × List K)}
    {outs : List (K × List K)} {ni : List (K × Int)} {nxt : List K}
    {lvs : List (List K)} {cg : List K} (hcgne : cg ≠ [])
    (hI : InvCore reg orig
      { outputs := outs, numInputs := ni, current := [], next := nxt,
        levels := lvs, curGroup := cg }) :
    Inv reg orig
      { outputs := outs, numInputs := ni, current := nxt, next := [],
        levels := lvs ++ [cg], curGroup := [] } := by
  have hfl : (lvs ++ [cg]).flatten = lvs.flatten ++ cg := by simp
  have hmem2 : ∀ k : K, k ∈ (lvs ++ [cg]).flatten ++ ([] : List K) ↔
      k ∈ lvs.flatten ++ cg := by
    intro k
    rw [hfl]
    simp
  have hG2 : ∀ (i : Nat) (k : K), MemGrp ((lvs ++ [cg]) ++ [([] : List K)]) i k ↔
      MemGrp (lvs ++ [cg]) i k := by
    intro i k
    rw [memGrp_append_iff]
    simp
  refine ⟨⟨hI.okeys, hI.obuckets, hI.nkeys, hI.srcs_reg, hI.count_eq,
    ?_, ?_, ?_, ?_, ?_, ?_, ?_, ?_, ?_, ?_, ?_, ?_, ?_⟩, fun _ => rfl, Or.inr rfl⟩
  -- proc_empty
  · intro a ha
    dsimp only at ha ⊢
    exact hI.proc_empty a ((hmem2 a).1 ha)
  -- unproc_intact
  · intro a ha
    dsimp only at ha ⊢
    exact hI.unproc_intact a (fun hc => ha ((hmem2 a).2 hc))
  -- zero_done
  · intro k hk
    dsimp only at hk ⊢
    apply hI.zero_done
    simp only [List.mem_append, List.flatten_append, List.flatten_cons,
      List.flatten_nil, List.append_nil, List.not_mem_nil, or_false, false_or] at hk ⊢
    tauto
  -- mem_reg
  · intro k hk
    dsimp only at hk
    apply hI.mem_reg
    simp only [List.mem_append, List.flatten_append, List.flatten_cons,
      List.flatten_nil, List.append_nil, List.not_mem_nil, or_false, false_or] at hk ⊢
    tauto
  -- proc_out_reg
  · intro a ha b hb
    dsimp only at ha
    exact hI.proc_out_reg a ((hmem2 a).1 ha) b hb
  -- reg_status
  · intro k hk
    rcases hI.reg_status k hk with hmem | hpos
    · left
      dsimp only
      simp only [List.mem_append, List.flatten_append, List.flatten_cons,
        List.flatten_nil, List.append_nil, List.not_mem_nil, or_false, false_or] at hmem ⊢
      tauto
    · exact Or.inr hpos
  -- cur_fresh
  · intro k hk
    dsimp only at hk ⊢
    obtain ⟨h1, h2, _⟩ := hI.next_fresh k hk
    refine ⟨?_, List.not_mem_nil k⟩
    rw [hfl]
    simp only [List.mem_append, not_or]
    exact ⟨h1, h2⟩
  -- next_fresh
  · intro k hk
    exact absurd hk (List.not_mem_nil k)
  -- ord_current
  · intro a b hedge hb
    dsimp only at hb ⊢
    have := hI.ord_next a b hedge hb
    rcases List.mem_append.1 this with h | h
    · obtain ⟨i, hi⟩ := mem_flatten_iff_memGrp.1 h
      exact ⟨i, memGrp_append_iff.2 (Or.inl hi)⟩
    · exact ⟨lvs.length, memGrp_append_iff.2 (Or.inr ⟨rfl, h⟩)⟩
  -- ord_next
  · intro a b _ hb
    exact absurd hb (List.not_mem_nil b)
  -- ord_groups
  · intro a b hedge i j hi hj
    dsimp only at hi hj
    rw [hG2] at hi hj
    exact hI.ord_groups a b hedge i j hi hj
  -- grp_once
  · intro k i j hi hj
    dsimp only at hi hj
    rw [hG2] at hi hj
    exact hI.grp_once k i j hi hj
  -- grp_nonempty
  · intro grp hgrp
    dsimp only at hgrp
    rcases List.mem_append.1 hgrp with h | h
    · exact hI.grp_nonempty grp h
    · simp only [List.mem_singleton] at h
      rw [h]
      exact hcgne

theorem inv_kloop {reg : List K} {orig : List (K × List K)} :
    ∀ (fuel : Nat) (s : KS K), Inv reg orig s →
      ∀ {s' : KS K}, kloop reg fuel s = .done s' →
        Inv reg orig s' ∧ s'.current = [] ∧ s'.next = [] ∧ s'.curGroup = [] := by
  intro fuel
  induction fuel with
  | zero => intro s hI s' h; simp [kloop] at h
  | succ f ih =>
    intro s hI s' h
    rcases hcur : s.current with _ | ⟨n, rest⟩
    · simp only [kloop] at h
      rw [hcur] at h
      dsimp only at h
      injection h with h
      subst h
      refine ⟨hI, hcur, hI.next_of_cur hcur, ?_⟩
      rcases hI.cur_or_grp with hc | hc
      · exact absurd hcur hc
      · exact hc
    · simp only [kloop] at h
      rw [hcur] at h
      dsimp only at h
      cases hrel : relaxList reg n ((alookup n s.outputs).getD [])
          { outputs := s.outputs, numInputs := s.numInputs, next := s.next } with
      | none => rw [hrel] at h; simp at h
      | some p =>
        rw [hrel] at h
        dsimp only at h
        have hstep := inv_step hI.toInvCore hcur hrel
        by_cases hre : rest.isEmpty
        · rw [if_pos hre] at h
          have hrest_nil : rest = [] := List.isEmpty_iff.1 hre
          subst hrest_nil
          exact ih _ (inv_swap (by simp) hstep) h
        · rw [if_neg hre] at h
          have hInvA : Inv reg orig
              { outputs := p.outputs, numInputs := p.numInputs, current := rest,
                next := p.next, levels := s.levels, curGroup := s.curGroup ++ [n] } :=
            { toInvCore := hstep,
              next_of_cur := fun hc => absurd (List.isEmpty_iff.2 hc) hre,
              cur_or_grp := Or.inl (fun hc => absurd (List.isEmpty_iff.2 hc) hre) }
          exact ih _ hInvA h

/-! ## The invariant holds initially -/

theorem findUndefined_none_mem {reg : List K} {l : List (K × List K)}
    (h : findUndefined reg l = none) : ∀ p ∈ l, p.1 ∈ reg := by
  induction l with
  | nil => intro p hp; simp at hp
  | cons q l ih =>
    intro p hp
    unfold findUndefined at h
    by_cases hq : q.1 ∈ reg
    · rw [if_pos hq] at h
      rcases List.mem_cons.1 hp with hp | hp
      · rw [hp]; exact hq
      · exact ih h p hp
    · rw [if_neg hq] at h
      simp at h

theorem inv_init {g : DAG K} (hg : GoodMaps g) (hc : CountInv g)
    (hund : findUndefined g.nodes (copyOutputs g.outputs) = none) :
    Inv g.nodes g.outputs (initKS g) := by
  rw [copyOutputs_id] at hund
  have hsrcs : ∀ k : K, (alookup k g.outputs).isSome → k ∈ g.nodes := by
    intro k hk
    cases hl : alookup k g.outputs with
    | none => rw [hl] at hk; simp at hk
    | some v => exact findUndefined_none_mem hund _ (alookup_mem hl)
  have hCE : ∀ k : K, (alookup k g.numInputs).getD 0 = (inDeg g.outputs k : Int) := hc
  unfold initKS
  rw [copyOutputs_id, copyCounts_id]
  have hfilt : ∀ k : K,
      k ∈ g.nodes.filter (fun n => (alookup n g.numInputs).getD 0 = 0) ↔
      (k ∈ g.nodes ∧ (alookup k g.numInputs).getD 0 = 0) := by
    intro k
    simp [List.mem_filter]
  refine ⟨⟨hg.okeys, hg.obuckets, hg.nkeys, hsrcs, hCE,
    ?_, ?_, ?_, ?_, ?_, ?_, ?_, ?_, ?_, ?_, ?_, ?_, by intro grp hgrp; simp at hgrp⟩,
    fun _ => rfl, Or.inr rfl⟩
  · intro a ha
    simp at ha
  · intro a _
    rfl
  · intro k hk
    dsimp only at hk
    simp only [List.flatten_nil, List.nil_append, List.append_nil] at hk
    exact ((hfilt k).1 hk).2
  · intro k hk
    dsimp only at hk
    simp only [List.flatten_nil, List.nil_append, List.append_nil] at hk
    exact ((hfilt k).1 hk).1
  · intro a ha
    simp at ha
  · intro k hk
    dsimp only
    simp only [List.flatten_nil, List.nil_append, List.append_nil]
    by_cases hz : (alookup k g.numInputs).getD 0 = 0
    · exact Or.inl ((hfilt k).2 ⟨hk, hz⟩)
    · right
      have := hCE k
      omega
  · intro k _
    exact ⟨by simp, by simp⟩
  · intro k hk
    simp at hk
  · intro a b hedge hb
    dsimp only at hb
    have hb2 := ((hfilt b).1 hb).2
    have hdeg : 0 < inDeg g.outputs b := inDeg_pos_of_mem (a := a) hedge
    have := hCE b
    omega
  · intro a b _ hb
    simp at hb
  · intro a b _ i j _ hj
    dsimp only at hj
    exact absurd hj memGrp_single_nil
  · intro k i j hi _
    dsimp only at hi
    exact absurd hi memGrp_single_nil

theorem kahn_done_inv {g : DAG K} (hg : GoodMaps g) (hc : CountInv g)
    (hund : findUndefined g.nodes (copyOutputs g.outputs) = none) {s' : KS K}
    (hdone : kahnRun g = .done s') :
    Inv g.nodes g.outputs s' ∧ s'.current = [] ∧ s'.next = [] ∧ s'.curGroup = [] :=
  inv_kloop _ _ (inv_init hg hc hund) hdone

/-! ## Consequences at the end of leveling -/

theorem unresolvedSum_entries_zero {l : List (K × Int)} (hpos : ∀ p ∈ l, 0 ≤ p.2)
    (hle : unresolvedSum l ≤ 0) : ∀ p ∈ l, p.2 = 0 := by
  induction l with
  | nil => intro p hp; simp at hp
  | cons q l ih =>
    have hq := hpos q (List.mem_cons_self _ _)
    have hrest : ∀ p ∈ l, 0 ≤ p.2 := fun p hp => hpos p (List.mem_cons_of_mem _ hp)
    have hsum : unresolvedSum l ≤ 0 ∧ q.2 = 0 := by
      unfold unresolvedSum at hle ⊢
      simp only [List.map_cons, List.sum_cons] at hle
      have : 0 ≤ (l.map (fun p => p.2)).sum := by
        apply List.sum_nonneg
        intro x hx
        obtain ⟨p, hp, rfl⟩ := List.mem_map.1 hx
        exact hrest p hp
      omega
    intro p hp
    rcases List.mem_cons.1 hp with hp | hp
    · rw [hp]; exact hsum.2
    · exact ih hrest hsum.1 p hp

theorem unresolvedSum_pos_exists {l : List (K × Int)} (h : 0 < unresolvedSum l) :
    ∃ p ∈ l, 0 < p.2 := by
  induction l with
  | nil => simp [unresolvedSum] at h
  | cons q l ih =>
    unfold unresolvedSum at h
    simp only [List.map_cons, List.sum_cons] at h
    by_cases hq : 0 < q.2
    · exact ⟨q, List.mem_cons_self _ _, hq⟩
    · have : 0 < unresolvedSum l := by unfold unresolvedSum; omega
      obtain ⟨p, hp, hpv⟩ := ih this
      exact ⟨p, List.mem_cons_of_mem _ hp, hpv⟩

theorem findSeed_isSome {outputs : List (K × List K)} {l : List K}
    (h : ∃ x ∈ l, ((alookup x outputs).getD []).length > 0) :
    (findSeed outputs l).isSome := by
  induction l with
  | nil => obtain ⟨x, hx, _⟩ := h; simp at hx
  | cons y l ih =>
    unfold findSeed
    by_cases hy : ((alookup y outputs).getD []).length > 0
    · rw [if_pos hy]; rfl
    · rw [if_neg hy]
      apply ih
      obtain ⟨x, hx, hxb⟩ := h
      rcases List.mem_cons.1 hx with hx | hx
      · exact absurd (hx ▸ hxb) hy
      · exact ⟨x, hx, hxb⟩

/-- At a completed leveling with no unresolved counts: every count is zero,
no edges remain, every registered node is leveled, leveled nodes are
registered, each node sits in exactly one level, and levels respect every
original edge. -/
theorem done_success_facts {reg : List K} {orig : List (K × List K)} {s : KS K}
    (hI : Inv reg orig s) (hcur : s.current = []) (hnext : s.next = [])
    (hcg : s.curGroup = []) (hsum : ¬ 0 < unresolvedSum s.numInputs) :
    (∀ k : K, (alookup k s.numInputs).getD 0 = 0) ∧
    (∀ a : K, bucketOf s.outputs a = []) ∧
    (∀ k ∈ reg, k ∈ s.levels.flatten) ∧
    (∀ k ∈ s.levels.flatten, k ∈ reg) ∧
    (∀ a b : K, b ∈ bucketOf orig a → ∀ i j : Nat,
      MemGrp s.levels i a → MemGrp s.levels j b → i < j) ∧
    (∀ (k : K) (i j : Nat), MemGrp s.levels i k → MemGrp s.levels j k → i = j) := by
  have hpos : ∀ p ∈ s.numInputs, 0 ≤ p.2 := by
    intro p hp
    have := alookup_eq_of_mem_nodup hI.nkeys hp
    have hce := hI.count_eq p.1
    rw [this] at hce
    simp only [Option.getD_some] at hce
    omega
  have hz : ∀ p ∈ s.numInputs, p.2 = 0 :=
    unresolvedSum_entries_zero hpos (by omega)
  have hcnt0 : ∀ k : K, (alookup k s.numInputs).getD 0 = 0 := by
    intro k
    cases hl : alookup k s.numInputs with
    | none => rfl
    | some v => rw [Option.getD_some]; exact hz _ (alookup_mem hl)
  have hbempty : ∀ a : K, bucketOf s.outputs a = [] := by
    intro a
    refine List.eq_nil_iff_forall_not_mem.2 fun b hb => ?_
    have hdeg : 0 < inDeg s.outputs b := inDeg_pos_of_mem (a := a) hb
    have := hI.count_eq b
    have := hcnt0 b
    omega
  refine ⟨hcnt0, hbempty, ?_, ?_, ?_, ?_⟩
  · intro k hk
    rcases hI.reg_status k hk with hmem | hpos2
    · rw [hcur, hnext, hcg] at hmem
      simpa using hmem
    · have := hcnt0 k
      omega
  · intro k hk
    apply hI.mem_reg
    simp only [List.mem_append]
    exact Or.inl (Or.inl (Or.inl hk))
  · intro a b hedge i j hi hj
    have hga : MemGrp (s.levels ++ [s.curGroup]) i a := memGrp_append_iff.2 (Or.inl hi)
    have hgb : MemGrp (s.levels ++ [s.curGroup]) j b := memGrp_append_iff.2 (Or.inl hj)
    exact hI.ord_groups a b hedge i j hga hgb
  · intro k i j hi hj
    exact hI.grp_once k i j (memGrp_append_iff.2 (Or.inl hi))
      (memGrp_append_iff.2 (Or.inl hj))

/-- At a completed leveling with unresolved counts, the seed search of the
cycle detector succeeds: some key with a positive count still has an
outgoing edge. -/
theorem done_cycle_seed {reg : List K} {orig : List (K × List K)} {s : KS K}
    (hI : Inv reg orig s) (hcur : s.current = []) (hnext : s.next = [])
    (hcg : s.curGroup = []) (hsum : 0 < unresolvedSum s.numInputs) :
    (findSeed s.outputs (isort (invalidIds s.numInputs))).isSome := by
  obtain ⟨q, hq, hqv⟩ := unresolvedSum_pos_exists hsum
  have hlq : alookup q.1 s.numInputs = some q.2 := alookup_eq_of_mem_nodup hI.nkeys hq
  have hcq : 0 < (alookup q.1 s.numInputs).getD 0 := by rw [hlq]; simpa using hqv
  have hdq : 0 < inDeg s.outputs q.1 := by
    have := hI.count_eq q.1
    omega
  obtain ⟨e, he, hke⟩ := inDeg_pos_exists hdq
  have hbe : bucketOf s.outputs e.1 = e.2 := by
    unfold bucketOf
    rw [alookup_eq_of_mem_nodup hI.okeys he]
    rfl
  have hereg : e.1 ∈ reg := hI.srcs_reg e.1 (by
    rw [alookup_eq_of_mem_nodup hI.okeys he]; rfl)
  have hecnt : 0 < (alookup e.1 s.numInputs).getD 0 := by
    rcases hI.reg_status e.1 hereg with hmem | hp
    · exfalso
      rw [hcur, hnext, hcg] at hmem
      simp only [List.append_nil] at hmem
      have := hI.proc_empty e.1 (by rw [hcg]; simpa using hmem)
      rw [hbe] at this
      rw [this] at hke
      simp at hke
    · exact hp
  apply findSeed_isSome
  refine ⟨e.1, ?_, ?_⟩
  · rw [mem_isort]
    unfold invalidIds
    cases hle : alookup e.1 s.numInputs with
    | none => rw [hle] at hecnt; simp at hecnt
    | some v =>
      rw [hle, Option.getD_some] at hecnt
      exact List.mem_map.2 ⟨(e.1, v), List.mem_filter.2 ⟨alookup_mem hle, by simpa using hecnt⟩, rfl⟩
  · have : (bucketOf s.outputs e.1).length > 0 := by
      rw [hbe]
      cases he2 : e.2 with
      | nil => rw [he2] at hke; simp at hke
      | cons x xs => simp
    unfold bucketOf at this
    exact this

/-! ## Facts about the scope-resolution filter -/

theorem mem_sinsert {x y : K} {l : List K} : y ∈ sinsert x l ↔ y = x ∨ y ∈ l := by
  unfold sinsert
  by_cases h : x ∈ l
  · rw [if_pos h]
    constructor
    · exact Or.inr
    · rintro (rfl | hy)
      · exact h
      · exact hy
  · rw [if_neg h]
    simp [or_comm]

theorem mem_foldl_sinsert (l : List K) :
    ∀ (acc : List K) (x : K),
      x ∈ l.foldl (fun a o => sinsert o a) acc ↔ x ∈ acc ∨ x ∈ l := by
  induction l with
  | nil => intro acc x; simp
  | cons y l ih =>
    intro acc x
    simp only [List.foldl_cons, ih, mem_sinsert, List.mem_cons]
    tauto

theorem mem_dedupKeep {l : List K} {x : K} : x ∈ dedupKeep l ↔ x ∈ l := by
  unfold dedupKeep
  rw [mem_foldl_sinsert]
  simp

theorem scanLevel_none (g : DAG K) (wd wod : Bool) :
    ∀ (grp inc : List K),
      scanLevel g wd wod grp none inc = .ok (inc ++ grp, none) := by
  intro grp
  induction grp with
  | nil => intro inc; simp [scanLevel]
  | cons node rest ih =>
    intro inc
    rw [scanLevel, ih]
    simp

theorem scanLevel_subset (g : DAG K) (wd wod : Bool) :
    ∀ (grp only inc : List K), (∀ k ∈ grp, k ∈ only) →
      scanLevel g wd wod grp (some only) inc = .ok (inc ++ grp, some only) := by
  intro grp
  induction grp with
  | nil => intro only inc _; simp [scanLevel]
  | cons node rest ih =>
    intro only inc hsub
    rw [scanLevel, if_pos (hsub node (List.mem_cons_self _ _))]
    rw [ih only _ (fun k hk => hsub k (List.mem_cons_of_mem _ hk))]
    simp

theorem filterRev_congr_subset (g : DAG K) (wd wod : Bool) :
    ∀ (rl : List (List K)) (only : List K),
      (∀ grp ∈ rl, ∀ k ∈ grp, k ∈ only) →
      filterRev g wd wod rl (some only) = filterRev g wd wod rl none := by
  intro rl
  induction rl with
  | nil => intro only _; rfl
  | cons grp rest ih =>
    intro only hsub
    rw [filterRev, filterRev,
      scanLevel_subset g wd wod grp only [] (hsub grp (List.mem_cons_self _ _)),
      scanLevel_none g wd wod grp []]
    dsimp only
    rw [ih only (fun grp2 h2 => hsub grp2 (List.mem_cons_of_mem _ h2))]

/-- What the filter computes when no selection is given: each level sorted,
empty levels dropped, deepest level last. -/
def revSorted : List (List K) → List (List K)
  | [] => []
  | grp :: rest => revSorted rest ++ (if grp.isEmpty then [] else [isort grp])

theorem filterRev_none (g : DAG K) (wd wod : Bool) :
    ∀ rl : List (List K), filterRev g wd wod rl none = .ok (revSorted rl) := by
  intro rl
  induction rl with
  | nil => rfl
  | cons grp rest ih =>
    rw [filterRev, scanLevel_none g wd wod grp []]
    dsimp only
    rw [ih]
    dsimp only
    rw [List.nil_append]
    show _ = Except.ok (revSorted rest ++ (if grp.isEmpty then [] else [isort grp]))
    by_cases hg : grp.isEmpty
    · rw [if_pos hg, if_pos hg]
      simp
    · rw [if_neg hg, if_neg hg]

theorem revSorted_append_single (l : List (List K)) (g : List K) :
    revSorted (l ++ [g]) = (if g.isEmpty then [] else [isort g]) ++ revSorted l := by
  induction l with
  | nil => simp [revSorted]
  | cons x l ih =>
    show revSorted (l ++ [g]) ++ _ = _
    rw [ih]
    simp [revSorted, List.append_assoc]

theorem revSorted_reverse_map (gs : List (List K)) (hne : ∀ grp ∈ gs, grp ≠ []) :
    revSorted gs.reverse = gs.map isort := by
  induction gs with
  | nil => rfl
  | cons g gs ih =>
    rw [List.reverse_cons, revSorted_append_single]
    rw [ih (fun grp h => hne grp (List.mem_cons_of_mem _ h))]
    have : g.isEmpty = false := by
      cases hg : g with
      | nil => exact absurd hg (hne g (List.mem_cons_self _ _))
      | cons x xs => rfl
    rw [this]
    rfl

theorem memGrp_map_isort (gs : List (List K)) :
    ∀ (i : Nat) (k : K), MemGrp (gs.map isort) i k ↔ MemGrp gs i k := by
  induction gs with
  | nil => intro i k; simp [MemGrp]
  | cons g gs ih =>
    intro i k
    cases i with
    | zero => simp [MemGrp, mem_isort]
    | succ i => exact ih i k

theorem scanLevel_ff_error (g : DAG K) :
    ∀ (grp only inc : List K) (d : K) (ds : List K),
      scanLevel g false false grp (some only) inc = .error (d, ds) →
      d ∉ only ∧ ds = isort (only.filter (fun t => t ∈ g.bucket d)) ∧
        only.filter (fun t => t ∈ g.bucket d) ≠ [] := by
  intro grp
  induction grp with
  | nil => intro only inc d ds h; simp [scanLevel] at h
  | cons node rest ih =>
    intro only inc d ds h
    rw [scanLevel] at h
    by_cases hin : node ∈ only
    · rw [if_pos hin] at h
      exact ih only _ d ds h
    · rw [if_neg hin, if_neg (by simp)] at h
      by_cases hdep : (only.filter (fun t => t ∈ g.bucket node)).isEmpty
      · rw [if_pos hdep] at h
        exact ih only _ d ds h
      · rw [if_neg hdep] at h
        simp only [Bool.not_false, if_pos] at h
        injection h with h
        injection h with h1 h2
        subst h1
        refine ⟨hin, h2.symm, ?_⟩
        intro hc
        rw [hc] at hdep
        exact hdep rfl

theorem scanLevel_ff_ok (g : DAG K) :
    ∀ (grp only inc : List K) (r : List K × Option (List K)),
      scanLevel g false false grp (some only) inc = .ok r →
      r.2 = some only ∧
        ∀ node ∈ grp, node ∉ only →
          only.filter (fun t => t ∈ g.bucket node) = [] := by
  intro grp
  induction grp with
  | nil =>
    intro only inc r h
    simp only [scanLevel, Except.ok.injEq] at h
    subst h
    exact ⟨rfl, by simp⟩
  | cons node rest ih =>
    intro only inc r h
    rw [scanLevel] at h
    by_cases hin : node ∈ only
    · rw [if_pos hin] at h
      obtain ⟨h1, h2⟩ := ih only _ r h
      refine ⟨h1, ?_⟩
      intro nd hnd hno
      rcases List.mem_cons.1 hnd with hnd | hnd
      · exact absurd (hnd ▸ hin) hno
      · exact h2 nd hnd hno
    · rw [if_neg hin, if_neg (by simp)] at h
      by_cases hdep : (only.filter (fun t => t ∈ g.bucket node)).isEmpty
      · rw [if_pos hdep] at h
        obtain ⟨h1, h2⟩ := ih only _ r h
        refine ⟨h1, ?_⟩
        intro nd hnd hno
        rcases List.mem_cons.1 hnd with hnd | hnd
        · subst hnd
          exact List.isEmpty_iff.1 hdep
        · exact h2 nd hnd hno
      · rw [if_neg hdep] at h
        simp only [Bool.not_false, if_pos] at h
        exact absurd h (by simp)

theorem filterRev_ff_error (g : DAG K) :
    ∀ (rl : List (List K)) (only : List K) (d : K) (ds : List K),
      filterRev g false false rl (some only) = .error (d, ds) →
      d ∉ only ∧ ds = isort (only.filter (fun t => t ∈ g.bucket d)) ∧
        only.filter (fun t => t ∈ g.bucket d) ≠ [] := by
  intro rl
  induction rl with
  | nil => intro only d ds h; simp [filterRev] at h
  | cons grp rest ih =>
    intro only d ds h
    rw [filterRev] at h
    cases hs : scanLevel g false false grp (some only) [] with
    | error e =>
      rw [hs] at h
      dsimp only at h
      injection h with h
      obtain ⟨e1, e2⟩ := e
      injection h with h1 h2
      subst h1
      subst h2
      exact scanLevel_ff_error g grp only [] _ _ hs
    | ok r =>
      rw [hs] at h
      obtain ⟨inc, only2⟩ := r
      dsimp only at h
      have hok := scanLevel_ff_ok g grp only [] _ hs
      have : only2 = some only := hok.1
      subst this
      cases hf : filterRev g false false rest (some only) with
      | error e2 =>
        rw [hf] at h
        dsimp only at h
        injection h with h
        obtain ⟨f1, f2⟩ := e2
        injection h with h1 h2
        subst h1
        subst h2
        exact ih only _ _ hf
      | ok out =>
        rw [hf] at h
        dsimp only at h
        exact absurd h (by simp)

theorem filterRev_ff_ok (g : DAG K) :
    ∀ (rl : List (List K)) (only : List K) (out : List (List K)),
      filterRev g false false rl (some only) = .ok out →
      ∀ grp ∈ rl, ∀ node ∈ grp, node ∉ only →
        only.filter (fun t => t ∈ g.bucket node) = [] := by
  intro rl
  induction rl with
  | nil => intro only out _ grp hgrp; simp at hgrp
  | cons grp0 rest ih =>
    intro only out h grp hgrp node hnode hno
    rw [filterRev] at h
    cases hs : scanLevel g false false grp0 (some only) [] with
    | error e =>
      rw [hs] at h
      dsimp only at h
      exact absurd h (by simp)
    | ok r =>
      rw [hs] at h
      obtain ⟨inc, only2⟩ := r
      dsimp only at h
      have hok := scanLevel_ff_ok g grp0 only [] _ hs
      have : only2 = some only := hok.1
      subst this
      cases hf : filterRev g false false rest (some only) with
      | error e2 =>
        rw [hf] at h
        dsimp only at h
        exact absurd h (by simp)
      | ok out2 =>
        rcases List.mem_cons.1 hgrp with hgrp | hgrp
        · exact hok.2 node (hgrp ▸ hnode) hno
        · exact ih only out2 hf grp hgrp node hnode hno

/-! ## Facts about the cycle-reconstruction walk -/

theorem length_filter_mono {p q : K → Bool} (h : ∀ y, p y = true → q y = true) :
    ∀ C : List K, (C.filter p).length ≤ (C.filter q).length := by
  intro C
  induction C with
  | nil => simp
  | cons c C ih =>
    by_cases hc : p c
    · rw [List.filter_cons, if_pos hc, List.filter_cons, if_pos (h c hc)]
      simpa using ih
    · rw [List.filter_cons, if_neg hc, List.filter_cons]
      split
      · simp only [List.length_cons]
        omega
      · exact ih

theorem filter_notmem_concat_lt {C path : List K} {x : K} (hx : x ∈ C)
    (hnp : x ∉ path) :
    (C.filter (fun y => !decide (y ∈ path ++ [x]))).length <
      (C.filter (fun y => !decide (y ∈ path))).length := by
  have hmono : ∀ y : K, (!decide (y ∈ path ++ [x])) = true →
      (!decide (y ∈ path)) = true := by
    intro y hy
    simp only [Bool.not_eq_eq_eq_not, Bool.not_true, decide_eq_false_iff_not,
      List.mem_append, not_or] at hy ⊢
    exact hy.1
  induction C with
  | nil => simp at hx
  | cons c C ih =>
    rcases List.mem_cons.1 hx with hc | hc
    · subst hc
      rw [List.filter_cons, List.filter_cons]
      rw [if_neg (by simp), if_pos (by simpa using hnp)]
      have := length_filter_mono hmono C
      simp only [List.length_cons]
      omega
    · have hlt := ih hc
      rw [List.filter_cons, List.filter_cons]
      by_cases h1 : (!decide (c ∈ path ++ [x])) = true
      · rw [if_pos h1, if_pos (hmono c h1)]
        simp only [List.length_cons]
        omega
      · rw [if_neg h1]
        split
        · simp only [List.length_cons]
          omega
        · exact hlt

theorem chain'_concat_of {R : K → K → Prop} {l : List K} {y z : K}
    (h : List.Chain' R (l ++ [y])) (hyz : R y z) :
    List.Chain' R ((l ++ [y]) ++ [z]) := by
  rw [List.chain'_append]
  refine ⟨h, List.chain'_singleton z, ?_⟩
  intro a ha b hb
  rw [List.getLast?_concat] at ha
  simp only [List.head?_cons, Option.mem_def, Option.some.injEq] at ha hb
  rw [← ha, ← hb]
  exact hyz

theorem walk_spec (outputs : List (K × List K)) (C : List K)
    (hC : ∀ a b : K, b ∈ bucketOf outputs a → b ∈ C) :
    ∀ (fuel : Nat) (path : List K) (cur : K),
      (C.filter (fun y => !decide (y ∈ path))).length < fuel →
      cur ∈ C →
      (List.Chain' (fun x y => y ∈ bucketOf outputs x) (path ++ [cur]) ∨
        (∃ q, path = q ++ [cur] ∧
          List.Chain' (fun x y => y ∈ bucketOf outputs x) path)) →
      ∃ (pfx : List K) (c : K),
        walkFuel outputs fuel path cur = pfx ++ [c] ∧ c ∈ pfx ∧
        (List.Chain' (fun x y => y ∈ bucketOf outputs x) (pfx ++ [c]) ∨
          (∃ q2, pfx = q2 ++ [c] ∧
            List.Chain' (fun x y => y ∈ bucketOf outputs x) pfx)) := by
  intro fuel
  induction fuel with
  | zero => intro path cur hfuel; omega
  | succ f ih =>
    intro path cur hfuel hcur harm
    rw [walkFuel]
    by_cases hmem : cur ∈ path
    · rw [if_pos hmem]
      exact ⟨path, cur, rfl, hmem, harm⟩
    · rw [if_neg hmem]
      have hchain : List.Chain' (fun x y => y ∈ bucketOf outputs x) (path ++ [cur]) := by
        rcases harm with h | ⟨q, hq, _⟩
        · exact h
        · exact absurd (hq ▸ List.mem_append.2 (Or.inr (by simp))) hmem
      have hfuel' : (C.filter (fun y => !decide (y ∈ path ++ [cur]))).length < f := by
        have := filter_notmem_concat_lt hcur hmem
        omega
      cases hbk : bucketOf outputs cur with
      | nil =>
        have hcur' : ((alookup cur outputs).getD []).headD cur = cur := by
          unfold bucketOf at hbk
          rw [hbk]
          rfl
        rw [hcur']
        exact ih (path ++ [cur]) cur hfuel' hcur (Or.inr ⟨path, rfl, hchain⟩)
      | cons h0 t0 =>
        have hcur' : ((alookup cur outputs).getD []).headD cur = h0 := by
          unfold bucketOf at hbk
          rw [hbk]
          rfl
        rw [hcur']
        have hh0 : h0 ∈ bucketOf outputs cur := by rw [hbk]; exact List.mem_cons_self _ _
        exact ih (path ++ [cur]) h0 hfuel' (hC cur h0 hh0)
          (Or.inl (chain'_concat_of hchain hh0))

/-- The path reconstructed by the cycle walk, against the remaining edge
snapshot: it closes at some previously visited node, and its consecutive
pairs are remaining edges — except that when the walk reaches a node with no
remaining outgoing edges, the path ends with that node repeated. -/
theorem walk_result_spec (outputs : List (K × List K)) (seed : K) :
    ∃ (pfx : List K) (c : K),
      walkFuel outputs (wfuel outputs) [] seed = pfx ++ [c] ∧ c ∈ pfx ∧
      (List.Chain' (fun x y => y ∈ bucketOf outputs x) (pfx ++ [c]) ∨
        (∃ q2, pfx = q2 ++ [c] ∧
          List.Chain' (fun x y => y ∈ bucketOf outputs x) pfx)) := by
  set C := seed :: (outputs.map (fun q => q.2)).flatten with hCdef
  have hC : ∀ a b : K, b ∈ bucketOf outputs a → b ∈ C := by
    intro a b hb
    unfold bucketOf at hb
    cases hl : alookup a outputs with
    | none => rw [hl] at hb; simp at hb
    | some m =>
      rw [hl, Option.getD_some] at hb
      refine List.mem_cons_of_mem _ (List.mem_flatten.2 ⟨m, ?_, hb⟩)
      exact List.mem_map.2 ⟨(a, m), alookup_mem hl, rfl⟩
  have hfuel : (C.filter (fun y => !decide (y ∈ ([] : List K)))).length
      < wfuel outputs := by
    have hflen : (outputs.map (fun q => q.2)).flatten.length
        = (outputs.map (fun p => p.2.length)).sum := by
      rw [List.length_flatten, List.map_map]
      rfl
    have : (C.filter (fun y => !decide (y ∈ ([] : List K)))).length = C.length := by
      simp
    rw [this, hCdef]
    simp only [List.length_cons, hflen]
    unfold wfuel
    omega
  exact walk_spec outputs C hC (wfuel outputs) [] seed hfuel
    (List.mem_cons_self _ _) (Or.inl (List.chain'_singleton seed))

/-! ## Composition helpers -/

theorem sortWith_of_phases {g : DAG K} {o : SortOptions K} {s : KS K}
    (hund : findUndefined g.nodes (copyOutputs g.outputs) = none)
    (hdone : kahnRun g = .done s) (hns : ¬ 0 < unresolvedSum s.numInputs) :
    g.sortWith o =
      match filterRev g o.withDependencies o.withoutDependencies
          s.levels.reverse (onlyOf o) with
      | .error (id, deps) => .ret [] (some (.unhandled id deps))
      | .ok res => .ret res none := by
  rw [sortWith_char, hund, hdone]
  dsimp only
  rw [if_neg hns]

theorem sortWith_cycle_build {g : DAG K} {o : SortOptions K} {s : KS K} {cur : K}
    (hund : findUndefined g.nodes (copyOutputs g.outputs) = none)
    (hdone : kahnRun g = .done s) (hs : 0 < unresolvedSum s.numInputs)
    (hseed : findSeed s.outputs (isort (invalidIds s.numInputs)) = some cur) :
    g.sortWith o =
      .ret s.levels (some (.cycle (walkFuel s.outputs (wfuel s.outputs) [] cur))) := by
  rw [sortWith_char, hund, hdone]
  dsimp only
  rw [if_pos hs, hseed]

theorem inv_bucket_sub {reg : List K} {orig : List (K × List K)} {s : KS K}
    (hI : InvCore reg orig s) :
    ∀ a b : K, b ∈ bucketOf s.outputs a → b ∈ bucketOf orig a := by
  intro a b hb
  by_cases hp : a ∈ s.levels.flatten ++ s.curGroup
  · rw [hI.proc_empty a hp] at hb
    simp at hb
  · rw [← hI.unproc_intact a hp]
    exact hb

theorem relaxList_isSome (reg : List K) (nid : K) :
    ∀ (ms : List K) (p : KPart K), (∀ m ∈ ms, m ∈ reg) →
      (relaxList reg nid ms p).isSome := by
  intro ms
  induction ms with
  | nil => intro p _; rfl
  | cons m rest ih =>
    intro p hreg
    simp only [relaxList]
    rw [if_pos (hreg m (List.mem_cons_self _ _))]
    exact ih _ (fun k hk => hreg k (List.mem_cons_of_mem _ hk))

theorem kloop_no_nilPanic {reg : List K} {orig : List (K × List K)}
    (htgt : ∀ a b : K, b ∈ bucketOf orig a → b ∈ reg) :
    ∀ (fuel : Nat) (s : KS K), Inv reg orig s → kloop reg fuel s ≠ .nilPanic := by
  intro fuel
  induction fuel with
  | zero => intro s _; simp [kloop]
  | succ f ih =>
    intro s hI
    rcases hcur : s.current with _ | ⟨n, rest⟩
    · simp only [kloop]
      rw [hcur]
      simp
    · simp only [kloop]
      rw [hcur]
      dsimp only
      have hms_reg : ∀ m ∈ (alookup n s.outputs).getD [], m ∈ reg := by
        intro m hm
        exact htgt n m (inv_bucket_sub hI.toInvCore n m hm)
      have hsome := relaxList_isSome reg n ((alookup n s.outputs).getD [])
        { outputs := s.outputs, numInputs := s.numInputs, next := s.next } hms_reg
      cases hrel : relaxList reg n ((alookup n s.outputs).getD [])
          { outputs := s.outputs, numInputs := s.numInputs, next := s.next } with
      | none => rw [hrel] at hsome; simp at hsome
      | some p =>
        dsimp only
        have hstep := inv_step hI.toInvCore hcur hrel
        by_cases hre : rest.isEmpty
        · rw [if_pos hre]
          have hrest_nil : rest = [] := List.isEmpty_iff.1 hre
          subst hrest_nil
          exact ih _ (inv_swap (by simp) hstep)
        · rw [if_neg hre]
          exact ih _
            { toInvCore := hstep,
              next_of_cur := fun hc => absurd (List.isEmpty_iff.2 hc) hre,
              cur_or_grp := Or.inl (fun hc => absurd (List.isEmpty_iff.2 hc) hre) }

/-! ## Concrete graphs used by the claim theorems -/

/-- Scenario 1 (§8) with numbered keys
(`web=0, api=1, db=2, cache=3, mesh=4, net=5`): the deployment graph from the
README and test suite. -/
def scenario1 : DAG Nat :=
  let g := New [Nodes [0, 1, 2, 3, 4, 5]]
  let g := (g.AddDependencies 0 [1, 3, 5]).1
  let g := (g.AddDependencies 1 [2, 3, 5]).1
  let g := (g.AddDependencies 2 [5]).1
  (g.AddDependencies 4 [5]).1

/-- Scenario 6 (§8) with numbered keys: node `0` declares the
never-registered dependency `1`. -/
def scenario6 : DAG Nat := ((New []).Add 0 { deps := [1] }).1

/-- Nodes `0,1,2,3`; edge `0 → 1` plus the two-cycle `2 ⇄ 3`. -/
def gCyclePlus : DAG Nat :=
  let g := ((New [Nodes [0, 1, 2, 3]]).AddEdge 0 1).1
  let g := (g.AddEdge 2 3).1
  (g.AddEdge 3 2).1

/-- Nodes `0,1,2` with edge `0 → 1`; then `RemoveEdge 2 1` decrements `1`'s
count although edge `(2,1)` never existed, leaving count 0 with edge `(0,1)`
still present. -/
def gBadCounts : DAG Nat :=
  let g := ((New [Nodes [0, 1, 2]]).AddEdge 0 1).1
  (g.RemoveEdge 2 1).1

/-- The ρ-shaped graph `0 → 1 → 2 → 1` with back edge `2 → 0`. -/
def gRho : DAG Nat :=
  let g := ((New [Nodes [0, 1, 2]]).AddEdge 0 1).1
  let g := (g.AddEdge 1 2).1
  let g := (g.AddEdge 2 1).1
  (g.AddEdge 2 0).1

/-- `AddEdge 0 1` then `RemoveEdge 0 1`: the unregistered source bucket `0`
stays behind, empty. -/
def gEmptyBucket : DAG Nat := (((New []).AddEdge 0 1).1.RemoveEdge 0 1).1

/-- Node `0` with an edge to the never-registered key `1`. -/
def gGhostTarget : DAG Nat := (((New []).AddNode 0).1.AddEdge 0 1).1

/-- Duplicate `AddEdge 0 1` on the two-node graph. -/
def gDupEdge : DAG Nat :=
  ((((New []).AddNode 0).1.AddNode 1).1.AddEdge 0 1).1.AddEdge 0 1 |>.1

/-- The two-node chain `0 → 1`. -/
def gChain : DAG Nat := ((New [Nodes [0, 1]]).AddEdge 0 1).1

/-! ## Helper lemmas for discharging hypotheses at concrete graphs -/

theorem srcs_of_keys_subset {g : DAG K}
    (h : ∀ k ∈ g.outputs.map Prod.fst, k ∈ g.nodes) :
    ∀ k : K, (alookup k g.outputs).isSome → k ∈ g.nodes := by
  intro k hk
  exact h k ((alookup_isSome_iff_mem_keys k g.outputs).1 hk)

theorem tgts_of_entries {g : DAG K}
    (h : ∀ p ∈ g.outputs, ∀ b ∈ p.2, b ∈ g.nodes) :
    ∀ a b : K, b ∈ g.bucket a → b ∈ g.nodes := by
  intro a b hb
  unfold DAG.bucket at hb
  cases hl : alookup a g.outputs with
  | none => rw [hl] at hb; simp at hb
  | some m =>
    rw [hl, Option.getD_some] at hb
    exact h _ (alookup_mem hl) b hb

def decOkDeps (g : DAG K) (s : K) : (ds : List K) → Decidable (OkDeps g s ds)
  | [] => isTrue trivial
  | d :: rest =>
    have : Decidable (OkDeps (g.AddEdge d s).1 s rest) := decOkDeps _ s rest
    inferInstanceAs (Decidable (¬ g.edge d s ∧ OkDeps (g.AddEdge d s).1 s rest))

instance (g : DAG K) (s : K) (ds : List K) : Decidable (OkDeps g s ds) :=
  decOkDeps g s ds

def decOkMut (g : DAG K) : (m : Mut K) → Decidable (OkMut g m)
  | .addNode _ => isTrue trivial
  | .addNodes _ => isTrue trivial
  | .addEdge a b => inferInstanceAs (Decidable (¬ g.edge a b))
  | .addDependency s ds => decOkDeps g s ds
  | .add n ds _ => decOkDeps (g.AddNode n).1 n ds
  | .addLabel _ _ => isTrue trivial
  | .removeEdge a b => inferInstanceAs (Decidable (g.edge a b))

instance (g : DAG K) (m : Mut K) : Decidable (OkMut g m) := decOkMut g m

def decOkSeq (g : DAG K) : (ms : List (Mut K)) → Decidable (OkSeq g ms)
  | [] => isTrue trivial
  | m :: rest =>
    have : Decidable (OkSeq (applyMut g m) rest) := decOkSeq _ rest
    inferInstanceAs (Decidable (OkMut g m ∧ OkSeq (applyMut g m) rest))

instance (g : DAG K) (ms : List (Mut K)) : Decidable (OkSeq g ms) := decOkSeq g ms

/-! ## Claim C4 -/

/-- C4 (code_bug evidence): re-adding an already-registered key is claimed to
return `false` and leave the graph unchanged; the code's duplicate check
tests `numInputs` — which `AddNode` never initialises, since the
initialisation is guarded by the inverted condition `ok` — so the second
`AddNode 0` returns `true` and appends the key to the node list again. -/
theorem c4_addNode_duplicate_divergence :
    ((New ([] : List (GraphOption Nat))).AddNode 0).2 = true ∧
    ((((New ([] : List (GraphOption Nat))).AddNode 0).1.AddNode 0)).2 = true ∧
    ((((New ([] : List (GraphOption Nat))).AddNode 0).1.AddNode 0)).1.nodes = [0, 0] := by
  exact ⟨rfl, rfl, rfl⟩

/-! ## Claim C3 -/

/-- C3 (counterexample): inserting the duplicate edge `(0,1)` leaves the edge
set unchanged but increments the remaining-input count of `1` to `2`, while
only one distinct edge points to `1` — refuting both the stated invariant and
the claimed idempotence of duplicate insertion. -/
theorem c3_counterexample :
    gDupEdge.bucket 0 = [1] ∧ gDupEdge.count 1 = 2 ∧ inDeg gDupEdge.outputs 1 = 1 := by
  decide

/-- C3 (amended): after every *clean* mutation sequence from a fresh graph —
one in which each `AddEdge` inserts an edge not currently present and each
`RemoveEdge` removes a present edge — every key's stored remaining-input
count equals the number of distinct edges currently pointing to it, and the
map representation stays well-formed.  (Duplicate `AddEdge` is *not*
idempotent: it leaves the edge set unchanged but increments the count, as the
counterexample shows.) -/
theorem c3_count_invariant {K : Type} [LinearOrder K] (ms : List (Mut K))
    (hok : OkSeq (New []) ms) :
    CountInv (applyMuts (New []) ms) ∧ GoodMaps (applyMuts (New []) ms) :=
  ⟨countInv_applyMuts goodMaps_new countInv_new hok, goodMaps_applyMuts goodMaps_new ms⟩

theorem c3_witness :
    OkSeq (New ([] : List (GraphOption Nat)))
      [.addNode 0, .addNode 1, .addEdge 0 1, .removeEdge 0 1, .addEdge 0 1] ∧
    CountInv (applyMuts (New ([] : List (GraphOption Nat)))
      [.addNode 0, .addNode 1, .addEdge 0 1, .removeEdge 0 1, .addEdge 0 1]) := by
  have hok : OkSeq (New ([] : List (GraphOption Nat)))
      [.addNode 0, .addNode 1, .addEdge 0 1, .removeEdge 0 1, .addEdge 0 1] := by
    decide
  exact ⟨hok, (c3_count_invariant _ hok).1⟩

/-! ## Claim C2 -/

/-- C2 (counterexample): on the graph with chain `0 → 1` and cycle `2 ⇄ 3`,
`Sort` returns the cycle error *together with* the non-empty partial Topology
`[[0], [1]]` of the levels completed before detection — not the zero value. -/
theorem c2_counterexample :
    gCyclePlus.sortG [] = .ret [[0], [1]] (some (.cycle [2, 3, 2])) ∧
    ([[0], [1]] : List (List Nat)) ≠ [] := by
  exact ⟨rfl, by decide⟩

/-- C2 (amended): the zero-value Topology accompanies exactly the
undefined-dependency and unhandled-dependency errors; a cycle-detected error
instead carries the levels completed by the leveling phase, which can be
non-empty (see the counterexample). -/
theorem c2_error_topology :
    (∀ (K : Type) [LinearOrder K] (g : DAG K) (o : SortOptions K)
        (t : List (List K)) (n : K) (dl : List K),
      g.sortWith o = .ret t (some (.undefined n dl)) → t = []) ∧
    (∀ (K : Type) [LinearOrder K] (g : DAG K) (o : SortOptions K)
        (t : List (List K)) (i : K) (dl : List K),
      g.sortWith o = .ret t (some (.unhandled i dl)) → t = []) ∧
    (∀ (K : Type) [LinearOrder K] (g : DAG K) (o : SortOptions K)
        (t : List (List K)) (p : List K),
      g.sortWith o = .ret t (some (.cycle p)) →
        ∃ s : KS K, kahnRun g = .done s ∧ t = s.levels) := by
  refine ⟨?_, ?_, ?_⟩
  · intro K _ g o t n dl h
    exact (sortWith_undefined_elim h).1
  · intro K _ g o t i dl h
    exact (sortWith_unhandled_elim h).1
  · intro K _ g o t p h
    obtain ⟨s, cur, _, hdone, _, _, ht, _⟩ := sortWith_cycle_elim h
    exact ⟨s, hdone, ht⟩

theorem c2_witness :
    scenario6.sortWith {} = .ret [] (some (.undefined 1 [0])) ∧
    ([] : List (List Nat)) = [] :=
  have h : scenario6.sortWith {} = .ret [] (some (.undefined 1 [0])) := by
    decide
  ⟨h, c2_error_topology.1 Nat scenario6 {} [] 1 [0] h⟩

/-! ## Claim C9 -/

/-- C9: a `Sort`/`Plan` call works on element-wise copies of the count and
edge maps (which copy every entry and nothing else), never writes a receiver
field, and therefore leaves the live graph unchanged; a second call on the
resulting graph with the same options returns the identical result (hence an
identical Topology string). -/
theorem c9_sort_readonly_repeatable :
    ∀ (K : Type) [LinearOrder K] (g : DAG K) (opts : List (SortOption K)),
      (copyCounts g.numInputs = g.numInputs ∧ copyOutputs g.outputs = g.outputs) ∧
      (g.sortProc opts).1 = g ∧
      ((g.sortProc opts).1.sortProc opts).2 = (g.sortProc opts).2 :=
  fun _ _ g _ => ⟨⟨copyCounts_id g.numInputs, copyOutputs_id g.outputs⟩, rfl, rfl⟩

/-! ## Claim C6 -/

theorem findUndefined_some_elim {reg : List K} {l : List (K × List K)}
    {q : K × List K} (h : findUndefined reg l = some q) : q ∈ l ∧ q.1 ∉ reg := by
  induction l with
  | nil => simp [findUndefined] at h
  | cons p rest ih =>
    unfold findUndefined at h
    by_cases hp : p.1 ∈ reg
    · rw [if_pos hp] at h
      obtain ⟨hm, hn⟩ := ih h
      exact ⟨List.mem_cons_of_mem _ hm, hn⟩
    · rw [if_neg hp, Option.some.injEq] at h
      subst h
      exact ⟨List.mem_cons_self _ _, hp⟩

theorem findUndefined_isSome_of {reg : List K} {l : List (K × List K)}
    (h : ∃ p ∈ l, p.1 ∉ reg) : ∃ q, findUndefined reg l = some q := by
  induction l with
  | nil => simp at h
  | cons p rest ih =>
    unfold findUndefined
    by_cases hp : p.1 ∈ reg
    · rw [if_pos hp]
      apply ih
      obtain ⟨q, hq, hqn⟩ := h
      cases List.mem_cons.1 hq with
      | inl he => subst he; exact absurd hp hqn
      | inr hm => exact ⟨q, hm, hqn⟩
    · exact ⟨p, by rw [if_neg hp]⟩

/-- C6 (counterexample): on the graph built by `AddEdge 0 1` then
`RemoveEdge 0 1`, no edge at all is present (every bucket is empty), yet
`Sort` still returns the undefined-node error for the leftover empty bucket
key `0` — so "some edge's source key was never registered" is not necessary
for the error, refuting the claimed iff. -/
theorem c6_counterexample :
    gEmptyBucket.sortG [] = .ret [] (some (.undefined 0 [])) ∧
    (∀ a b : Nat, ¬ gEmptyBucket.edge a b) ∧
    (0 : Nat) ∉ gEmptyBucket.nodes := by
  refine ⟨by decide, ?_, by decide⟩
  intro a b hb
  have ho : gEmptyBucket.outputs = [(0, [])] := by decide
  unfold DAG.edge DAG.bucket at hb
  rw [ho] at hb
  by_cases ha : a = 0
  · subst ha; simp [alookup] at hb
  · simp only [alookup] at hb
    rw [if_neg (fun h : (0 : Nat) = a => ha h.symm)] at hb
    simp at hb

/-- C6 (amended): `Sort`/`Plan` returns the undefined-node error (with the
zero-value Topology) iff some *key of the `outputs` map* — an edge source
that is current or was ever added, even if its bucket has since been emptied
by `RemoveEdge` — is not a registered node; the error carries such a key and
its current (possibly empty) dependents bucket, and is produced by the check
that runs before any Kahn leveling.  On Scenario 6 (node `0` declaring the
never-registered dependency `1`) the error is `undefined 1 [0]`, and the Go
`Error()` rendering of the Scenario-6 message is exactly
`undefined node "ng" is depended by node(s): web`. -/
theorem c6_undefined_iff :
    (∀ (K : Type) [LinearOrder K] (g : DAG K) (o : SortOptions K),
      ((∃ p ∈ g.outputs, p.1 ∉ g.nodes) ↔
        (∃ n dl, g.sortWith o = .ret [] (some (.undefined n dl)))) ∧
      (∀ (t : List (List K)) (n : K) (dl : List K),
        g.sortWith o = .ret t (some (.undefined n dl)) →
        t = [] ∧ (n, dl) ∈ g.outputs ∧ n ∉ g.nodes)) ∧
    scenario6.sortWith {} = .ret [] (some (.undefined 1 [0])) ∧
    undefinedErrorString "ng" ["web"]
      = "undefined node \"ng\" is depended by node(s): web" := by
  refine ⟨?_, by decide, by decide⟩
  intro K _ g o
  have hco : copyOutputs g.outputs = g.outputs := copyOutputs_id _
  refine ⟨⟨?_, ?_⟩, ?_⟩
  · intro hex
    obtain ⟨q, hq⟩ := findUndefined_isSome_of hex
    obtain ⟨n, dl⟩ := q
    refine ⟨n, dl, ?_⟩
    rw [sortWith_char, hco, hq]
  · rintro ⟨n, dl, hret⟩
    obtain ⟨-, hf⟩ := sortWith_undefined_elim hret
    rw [hco] at hf
    obtain ⟨hm, hn⟩ := findUndefined_some_elim hf
    exact ⟨(n, dl), hm, hn⟩
  · intro t n dl hret
    obtain ⟨ht, hf⟩ := sortWith_undefined_elim hret
    rw [hco] at hf
    obtain ⟨hm, hn⟩ := findUndefined_some_elim hf
    exact ⟨ht, hm, hn⟩

/-! ## Claim C5 -/

/-- C5 (counterexample): on the ρ-shaped graph `0 → 1 → 2 → 1` (plus back
edge `2 → 0`), the cycle error's path is `[0, 1, 2, 1]`, whose first and
last keys differ — the walk starts at the seed `0`, which lies on the tail
leading into the cycle, not on the cycle itself. -/
theorem c5_counterexample :
    gRho.sortG [] = .ret [] (some (.cycle [0, 1, 2, 1])) ∧
    ([0, 1, 2, 1] : List Nat).head? ≠ ([0, 1, 2, 1] : List Nat).getLast? :=
  ⟨by decide, by decide⟩

theorem aset_erase_bucket_sub {l : List (K × List K)} {nid m : K} {m0 : List K}
    (hl : alookup nid l = some m0) :
    ∀ a b : K, b ∈ bucketOf (aset nid (m0.erase m) l) a → b ∈ bucketOf l a := by
  intro a b hb
  unfold bucketOf at hb ⊢
  by_cases ha : a = nid
  · subst ha
    rw [alookup_aset_self, Option.getD_some] at hb
    rw [hl, Option.getD_some]
    exact List.mem_of_mem_erase hb
  · rw [alookup_aset_ne _ _ (fun he => ha he.symm)] at hb
    exact hb

theorem relaxList_bucket_sub {reg : List K} {nid : K} :
    ∀ (ms : List K) (p p' : KPart K), relaxList reg nid ms p = some p' →
      ∀ a b : K, b ∈ bucketOf p'.outputs a → b ∈ bucketOf p.outputs a := by
  intro ms
  induction ms with
  | nil =>
    intro p p' h a b hb
    simp only [relaxList, Option.some.injEq] at h
    subst h
    exact hb
  | cons m rest ih =>
    intro p p' h a b hb
    simp only [relaxList] at h
    by_cases hm : m ∈ reg
    · rw [if_pos hm] at h
      have hstep := ih _ _ h a b hb
      dsimp only at hstep
      cases hl : alookup nid p.outputs with
      | none => rw [hl] at hstep; exact hstep
      | some m0 =>
        rw [hl] at hstep
        exact aset_erase_bucket_sub hl a b hstep
    · rw [if_neg hm] at h
      exact Option.noConfusion h

theorem kloop_bucket_sub {reg : List K} :
    ∀ (fuel : Nat) (s : KS K) {s' : KS K}, kloop reg fuel s = .done s' →
      ∀ a b : K, b ∈ bucketOf s'.outputs a → b ∈ bucketOf s.outputs a := by
  intro fuel
  induction fuel with
  | zero => intro s s' h; simp [kloop] at h
  | succ f ih =>
    intro s s' h a b hb
    rcases hc : s.current with _ | ⟨n, rest⟩
    · simp only [kloop] at h
      rw [hc] at h
      dsimp only at h
      injection h with h
      subst h
      exact hb
    · simp only [kloop] at h
      rw [hc] at h
      dsimp only at h
      cases hrel : relaxList reg n ((alookup n s.outputs).getD [])
          { outputs := s.outputs, numInputs := s.numInputs, next := s.next } with
      | none => rw [hrel] at h; exact KOut.noConfusion h
      | some p =>
        rw [hrel] at h
        dsimp only at h
        have hmono : ∀ a b : K, b ∈ bucketOf p.outputs a → b ∈ bucketOf s.outputs a :=
          relaxList_bucket_sub _ _ _ hrel
        by_cases hre : rest.isEmpty
        · rw [if_pos hre] at h
          exact hmono a b (ih _ h a b hb)
        · rw [if_neg hre] at h
          exact hmono a b (ih _ h a b hb)

theorem kahnRun_bucket_sub {g : DAG K} {s : KS K} (hdone : kahnRun g = .done s) :
    ∀ a b : K, b ∈ bucketOf s.outputs a → b ∈ bucketOf g.outputs a := by
  intro a b hb
  have hinit := kloop_bucket_sub _ _ hdone a b hb
  dsimp only [initKS] at hinit
  rw [copyOutputs_id] at hinit
  exact hinit

/-- C5 (amended): every cycle error's path ends at a node that appeared
earlier in the path (the walk closes at *some* previously visited node, not
necessarily the first), and its consecutive pairs are edges of the graph —
except that a node with no remaining outgoing edge makes the walk stall,
ending the path with that node repeated (`… c, c` with `(c, c)` not an
edge).  This holds unconditionally: the walk only ever follows edges of the
working snapshot, and relaxation only removes bucket entries, so every
snapshot edge is an edge of the live graph. -/
theorem c5_cycle_path {K : Type} [LinearOrder K] {g : DAG K} {o : SortOptions K}
    {t : List (List K)} {p : List K}
    (h : g.sortWith o = .ret t (some (.cycle p))) :
    ∃ (pfx : List K) (c : K), p = pfx ++ [c] ∧ c ∈ pfx ∧
      (List.Chain' g.edge (pfx ++ [c]) ∨
        ∃ q2, pfx = q2 ++ [c] ∧ List.Chain' g.edge pfx) := by
  obtain ⟨s, cur, hund, hdone, hs, hseed, ht, hp⟩ := sortWith_cycle_elim h
  have himp : ∀ a b : K, b ∈ bucketOf s.outputs a → g.edge a b := by
    intro a b hb
    exact kahnRun_bucket_sub hdone a b hb
  obtain ⟨pfx, c, heq, hcm, hch⟩ := walk_result_spec s.outputs cur
  refine ⟨pfx, c, by rw [hp, heq], hcm, ?_⟩
  rcases hch with h1 | ⟨q2, hq2, h2⟩
  · exact Or.inl (List.Chain'.imp himp h1)
  · exact Or.inr ⟨q2, hq2, List.Chain'.imp himp h2⟩

theorem c5_witness :
    gRho.sortWith (applySortOptions []) = .ret [] (some (.cycle [0, 1, 2, 1])) ∧
    ∃ (pfx : List Nat) (c : Nat), [0, 1, 2, 1] = pfx ++ [c] ∧ c ∈ pfx ∧
      (List.Chain' gRho.edge (pfx ++ [c]) ∨
        ∃ q2, pfx = q2 ++ [c] ∧ List.Chain' gRho.edge pfx) := by
  have h : gRho.sortWith (applySortOptions []) = .ret [] (some (.cycle [0, 1, 2, 1])) := by
    decide
  exact ⟨h, c5_cycle_path h⟩

/-! ## Claim C10 -/

theorem findUndefined_none_of {reg : List K} {l : List (K × List K)}
    (h : ∀ p ∈ l, p.1 ∈ reg) : findUndefined reg l = none := by
  induction l with
  | nil => rfl
  | cons p rest ih =>
    unfold findUndefined
    rw [if_pos (h p (List.mem_cons_self _ _))]
    exact ih (fun q hq => h q (List.mem_cons_of_mem _ hq))

/-- C10 (counterexample): on the graph `AddNode 0; AddEdge 0 1` — whose maps
are well-formed, whose counts all match in-degrees, and whose every edge
*source* is a registered node — `Sort` does not return a pair at all: the
relax loop dereferences the nil node entry of the unregistered edge *target*
`1` and panics. -/
theorem c10_counterexample :
    GoodMaps gGhostTarget ∧ CountInv gGhostTarget ∧
    (∀ k : Nat, (alookup k gGhostTarget.outputs).isSome → k ∈ gGhostTarget.nodes) ∧
    gGhostTarget.sortG [] = .panicked .nilDeref := by
  refine ⟨⟨by decide, by decide, by decide⟩,
    countInv_of_checks (by decide) (by decide), ?_, by decide⟩
  exact srcs_of_keys_subset (by decide)

/-- C10 (amended): under the claim's hypotheses *plus* registration of every
edge target, the claim's conclusions hold: whenever leveling ends with
unresolved counts, some positive-count node still has a remaining outgoing
edge (so the `"invalid state"` panic branch is unreachable), and `Sort`
returns a `(Topology, error)` pair.  Registration of the edge sources alone
(the claim's hypothesis) is not enough: an unregistered edge *target* makes
the relax loop panic on a nil node entry, as the counterexample shows. -/
theorem c10_no_panic {K : Type} [LinearOrder K] {g : DAG K} (o : SortOptions K)
    (hg : GoodMaps g) (hc : CountInv g)
    (hsrcs : ∀ k : K, (alookup k g.outputs).isSome → k ∈ g.nodes)
    (htgt : ∀ a b : K, g.edge a b → b ∈ g.nodes) :
    (∀ s : KS K, kahnRun g = .done s → 0 < unresolvedSum s.numInputs →
      (findSeed s.outputs (isort (invalidIds s.numInputs))).isSome) ∧
    ∃ (t : List (List K)) (e : Option (SortErr K)), g.sortWith o = .ret t e := by
  have hund : findUndefined g.nodes (copyOutputs g.outputs) = none := by
    rw [copyOutputs_id]
    refine findUndefined_none_of (fun p hp => hsrcs p.1 ?_)
    rw [alookup_isSome_iff_mem_keys]
    exact List.mem_map_of_mem _ hp
  have hseed : ∀ s : KS K, kahnRun g = .done s → 0 < unresolvedSum s.numInputs →
      (findSeed s.outputs (isort (invalidIds s.numInputs))).isSome := by
    intro s hdone hs
    obtain ⟨hI, hcur, hnext, hcg⟩ := kahn_done_inv hg hc hund hdone
    exact done_cycle_seed hI hcur hnext hcg hs
  refine ⟨hseed, ?_⟩
  cases hrun : kahnRun g with
  | nilPanic =>
    exact absurd hrun
      (kloop_no_nilPanic (fun a b hb => htgt a b hb) _ _ (inv_init hg hc hund))
  | fuelOut => exact absurd hrun (kloop_kfuel_ne_fuelOut _ _)
  | done s =>
    by_cases hs : 0 < unresolvedSum s.numInputs
    · obtain ⟨cur, hcur⟩ := Option.isSome_iff_exists.1 (hseed s hrun hs)
      exact ⟨s.levels, some (.cycle (walkFuel s.outputs (wfuel s.outputs) [] cur)),
        sortWith_cycle_build hund hrun hs hcur⟩
    · have hchar := sortWith_of_phases (o := o) hund hrun hs
      cases hf : filterRev g o.withDependencies o.withoutDependencies
          s.levels.reverse (onlyOf o) with
      | error e =>
        obtain ⟨ei, ed⟩ := e
        rw [hf] at hchar
        dsimp only at hchar
        exact ⟨[], some (.unhandled ei ed), hchar⟩
      | ok res =>
        rw [hf] at hchar
        dsimp only at hchar
        exact ⟨res, none, hchar⟩

theorem c10_witness :
    (GoodMaps gChain ∧ CountInv gChain ∧
      (∀ k : Nat, (alookup k gChain.outputs).isSome → k ∈ gChain.nodes) ∧
      (∀ a b : Nat, gChain.edge a b → b ∈ gChain.nodes)) ∧
    ∃ (t : List (List Nat)) (e : Option (SortErr Nat)),
      gChain.sortWith (applySortOptions []) = .ret t e := by
  have hg : GoodMaps gChain := ⟨by decide, by decide, by decide⟩
  have hc : CountInv gChain := countInv_of_checks (by decide) (by decide)
  have hsrcs : ∀ k : Nat, (alookup k gChain.outputs).isSome → k ∈ gChain.nodes :=
    srcs_of_keys_subset (by decide)
  have htgt : ∀ a b : Nat, gChain.edge a b → b ∈ gChain.nodes :=
    tgts_of_entries (by decide)
  exact ⟨⟨hg, hc, hsrcs, htgt⟩,
    (c10_no_panic (applySortOptions []) hg hc hsrcs htgt).2⟩

/-! ## Claim C8 -/

theorem relaxList_next_reg {reg : List K} {nid : K} :
    ∀ (ms : List K) (p p' : KPart K), relaxList reg nid ms p = some p' →
      (∀ k ∈ p.next, k ∈ reg) → ∀ k ∈ p'.next, k ∈ reg := by
  intro ms
  induction ms with
  | nil =>
    intro p p' h hp
    simp only [relaxList, Option.some.injEq] at h
    subst h
    exact hp
  | cons m rest ih =>
    intro p p' h hp
    simp only [relaxList] at h
    by_cases hm : m ∈ reg
    · rw [if_pos hm] at h
      refine ih _ _ h ?_
      intro k hk
      dsimp only at hk
      by_cases hz : (alookup m
          (aset m ((alookup m p.numInputs).getD 0 - 1) p.numInputs)).getD 0 = 0
      · rw [if_pos hz] at hk
        rcases List.mem_append.1 hk with hk | hk
        · exact hp k hk
        · rw [List.mem_singleton] at hk
          subst hk
          exact hm
      · rw [if_neg hz] at hk
        exact hp k hk
    · rw [if_neg hm] at h
      exact Option.noConfusion h

theorem kloop_levels_reg {reg : List K} :
    ∀ (fuel : Nat) (s : KS K) {s' : KS K},
      kloop reg fuel s = .done s' →
      (∀ k ∈ s.current, k ∈ reg) → (∀ k ∈ s.next, k ∈ reg) →
      (∀ k ∈ s.levels.flatten, k ∈ reg) → (∀ k ∈ s.curGroup, k ∈ reg) →
      ∀ k ∈ s'.levels.flatten, k ∈ reg := by
  intro fuel
  induction fuel with
  | zero => intro s s' h; simp [kloop] at h
  | succ f ih =>
    intro s s' h hcur hnext hlev hcg
    rcases hc : s.current with _ | ⟨n, rest⟩
    · simp only [kloop] at h
      rw [hc] at h
      dsimp only at h
      injection h with h
      subst h
      exact hlev
    · simp only [kloop] at h
      rw [hc] at h
      dsimp only at h
      cases hrel : relaxList reg n ((alookup n s.outputs).getD [])
          { outputs := s.outputs, numInputs := s.numInputs, next := s.next } with
      | none => rw [hrel] at h; exact KOut.noConfusion h
      | some p =>
        rw [hrel] at h
        dsimp only at h
        have hnext' : ∀ k ∈ p.next, k ∈ reg := relaxList_next_reg _ _ _ hrel hnext
        have hn_reg : n ∈ reg := hcur n (by rw [hc]; exact List.mem_cons_self _ _)
        have hcg' : ∀ k ∈ s.curGroup ++ [n], k ∈ reg := by
          intro k hk
          rcases List.mem_append.1 hk with hk | hk
          · exact hcg k hk
          · rw [List.mem_singleton] at hk
            subst hk
            exact hn_reg
        by_cases hre : rest.isEmpty
        · rw [if_pos hre] at h
          refine ih _ h hnext' (by simp) ?_ (by simp)
          intro k hk
          simp only [List.flatten_append, List.flatten_cons, List.flatten_nil,
            List.append_nil] at hk
          rcases List.mem_append.1 hk with hk | hk
          · exact hlev k hk
          · exact hcg' k hk
        · rw [if_neg hre] at h
          exact ih _ h
            (fun k hk => hcur k (by rw [hc]; exact List.mem_cons_of_mem _ hk))
            hnext' hlev hcg'

theorem kahnRun_levels_nodes {g : DAG K} {s : KS K}
    (hdone : kahnRun g = .done s) : ∀ k ∈ s.levels.flatten, k ∈ g.nodes := by
  refine kloop_levels_reg _ _ hdone ?_ ?_ ?_ ?_
  · intro k hk
    dsimp only [initKS] at hk
    exact (List.mem_filter.1 hk).1
  · intro k hk
    simp [initKS] at hk
  · intro k hk
    simp [initKS] at hk
  · intro k hk
    simp [initKS] at hk

/-- C8: if `Sort` with no options succeeds with Topology `t`, then
`Sort(Only(k1, …, kn))` — with no dependency flag — where `{k1, …, kn}` has
exactly the registered node keys as members, returns the same `t`: every
level member is registered, hence selected, so the scope filter keeps every
group intact. -/
theorem c8_only_all :
    ∀ (K : Type) [LinearOrder K] (g : DAG K) (ks : List K) (t : List (List K)),
      g.sortG [] = .ret t none → (∀ k : K, k ∈ ks ↔ k ∈ g.nodes) →
      g.sortG [Only ks] = .ret t none := by
  intro K _ g ks t h hiff
  have h1 : g.sortWith (applySortOptions []) = .ret t none := h
  obtain ⟨s, hund, hdone, hns, hfilt⟩ := sortWith_ok_elim h1
  have hfilt' : filterRev g false false s.levels.reverse none = .ok t := hfilt
  have hlev := kahnRun_levels_nodes hdone
  have hsub : ∀ grp ∈ s.levels.reverse, ∀ k ∈ grp, k ∈ dedupKeep ks := by
    intro grp hgrp k hk
    rw [mem_dedupKeep, hiff]
    exact hlev k (List.mem_flatten.2 ⟨grp, List.mem_reverse.1 hgrp, hk⟩)
  have hgoal : filterRev g (applySortOptions [Only ks]).withDependencies
      (applySortOptions [Only ks]).withoutDependencies s.levels.reverse
      (onlyOf (applySortOptions [Only ks])) = .ok t := by
    show filterRev g false false s.levels.reverse
      (onlyOf (applySortOptions [Only ks])) = .ok t
    rcases ks with _ | ⟨k0, krest⟩
    · exact hfilt'
    · have honly : onlyOf (applySortOptions [Only (k0 :: krest)])
          = some (dedupKeep (k0 :: krest)) := by
        show (if (k0 :: krest).length > 0
          then some (dedupKeep (k0 :: krest)) else none) = _
        rw [if_pos (by simp)]
      rw [honly,
        filterRev_congr_subset g false false s.levels.reverse
          (dedupKeep (k0 :: krest)) hsub]
      exact hfilt'
  show g.sortWith (applySortOptions [Only ks]) = .ret t none
  rw [sortWith_of_phases (o := applySortOptions [Only ks]) hund hdone hns, hgoal]

theorem c8_witness :
    gChain.sortG [] = .ret [[0], [1]] none ∧
    gChain.sortG [Only [0, 1]] = .ret [[0], [1]] none := by
  have h : gChain.sortG [] = .ret [[0], [1]] none := by decide
  have hiff : ∀ k : Nat, k ∈ [0, 1] ↔ k ∈ gChain.nodes := by
    have hn : gChain.nodes = [0, 1] := by decide
    intro k
    rw [hn]
  exact ⟨h, c8_only_all Nat gChain [0, 1] [[0], [1]] h hiff⟩

/-! ## Claim C7 -/

theorem onlyOf_applyOnly {sel : List K} (h : sel ≠ []) :
    onlyOf (applySortOptions [Only sel]) = some (dedupKeep sel) := by
  show (if sel.length > 0 then some (dedupKeep sel) else none) = _
  rw [if_pos (List.length_pos.2 h)]

/-- C7 (counterexample): on the graph with chain `0 → 1` and cycle `2 ⇄ 3`,
`Sort(Only(1))` with no dependency flag meets the claim's premises — the
selection `[1]` is non-empty and the non-selected node `0` is a direct
dependency of the selected node `1` — yet the call fails with the *cycle*
error (and a non-nil partial Topology), not the unhandled-dependency error:
cycle detection runs before the scope filter. -/
theorem c7_counterexample :
    gCyclePlus.sortG [Only [1]] = .ret [[0], [1]] (some (.cycle [2, 3, 2])) ∧
    gCyclePlus.edge 0 1 ∧ (0 : Nat) ∉ [1] ∧ (1 : Nat) ∈ [1] :=
  ⟨by decide, by decide, by decide, by decide⟩

/-- C7 (amended): *given that the graph's plain `Sort` succeeds* (well-formed
maps, counts matching in-degrees, no undefined key and no cycle), `Only`
with a non-empty selection and no dependency flag fails as claimed: if a
non-selected `d0` is a direct dependency of a selected `s0`, the call
returns the zero-value Topology with an unhandled-dependency error naming
some non-selected dependency `d` together with all its selected dependents,
sorted by key order.  On Scenario 1 with `Only(db, mesh)` (keys `2, 4`) the
error is `unhandled 5 [2, 4]` (`net` depended by `db` and `mesh`), and the
Go `Error()` rendering is exactly
`"net" depended by "db" and "mesh" is not included`. -/
theorem c7_unhandled :
    (∀ (K : Type) [LinearOrder K] (g : DAG K) (sel : List K) (s0 d0 : K)
        (t : List (List K)),
      GoodMaps g → CountInv g → g.sortG [] = .ret t none →
      s0 ∈ sel → d0 ∉ sel → g.edge d0 s0 →
      ∃ (d : K) (dl : List K),
        g.sortG [Only sel] = .ret [] (some (.unhandled d dl)) ∧
        d ∉ sel ∧
        dl = isort ((dedupKeep sel).filter (fun x => x ∈ g.bucket d)) ∧
        dl ≠ [] ∧ ∀ m ∈ dl, m ∈ sel ∧ g.edge d m) ∧
    scenario1.sortG [Only [2, 4]] = .ret [] (some (.unhandled 5 [2, 4])) ∧
    unhandledErrorString "net" ["db", "mesh"]
      = "\"net\" depended by \"db\" and \"mesh\" is not included" := by
  refine ⟨?_, by decide, by decide⟩
  intro K _ g sel s0 d0 t hg hc h hs0 hd0 hedge
  have h1 : g.sortWith (applySortOptions []) = .ret t none := h
  obtain ⟨s, hund, hdone, hns, hfilt⟩ := sortWith_ok_elim h1
  have hselne : sel ≠ [] := by
    intro hemp
    rw [hemp] at hs0
    simp at hs0
  have hund2 := hund
  rw [copyOutputs_id] at hund2
  have hd0reg : d0 ∈ g.nodes := by
    have hb := hedge
    unfold DAG.edge DAG.bucket at hb
    cases hl : alookup d0 g.outputs with
    | none => rw [hl] at hb; simp at hb
    | some m => exact findUndefined_none_mem hund2 (d0, m) (alookup_mem hl)
  obtain ⟨hI, hcur, hnext, hcg⟩ := kahn_done_inv hg hc hund hdone
  obtain ⟨-, -, hcomp, -, -, -⟩ := done_success_facts hI hcur hnext hcg hns
  have hd0lev : d0 ∈ s.levels.flatten := hcomp d0 hd0reg
  cases hf : filterRev g false false s.levels.reverse (some (dedupKeep sel)) with
  | ok out =>
    exfalso
    obtain ⟨grp, hgrp, hmem⟩ := List.mem_flatten.1 hd0lev
    have hflt := filterRev_ff_ok g _ _ _ hf grp (List.mem_reverse.2 hgrp) d0 hmem
      (fun hm => hd0 (mem_dedupKeep.1 hm))
    have hs0f : s0 ∈ (dedupKeep sel).filter (fun x => x ∈ g.bucket d0) :=
      List.mem_filter.2 ⟨mem_dedupKeep.2 hs0, decide_eq_true hedge⟩
    rw [hflt] at hs0f
    simp at hs0f
  | error e =>
    obtain ⟨d, dl⟩ := e
    have he := filterRev_ff_error g _ _ _ _ hf
    refine ⟨d, dl, ?_, fun hm => he.1 (mem_dedupKeep.2 hm), he.2.1, ?_, ?_⟩
    · show g.sortWith (applySortOptions [Only sel]) = _
      rw [sortWith_of_phases (o := applySortOptions [Only sel]) hund hdone hns]
      show (match filterRev g false false s.levels.reverse
          (onlyOf (applySortOptions [Only sel])) with
        | .error (id, deps) => SortRes.ret [] (some (.unhandled id deps))
        | .ok res => SortRes.ret res none) = _
      rw [onlyOf_applyOnly hselne, hf]
    · rw [he.2.1]
      intro hiso
      obtain ⟨a, ha⟩ := List.exists_mem_of_ne_nil _ he.2.2
      have hai : a ∈ isort ((dedupKeep sel).filter (fun x => x ∈ g.bucket d)) :=
        mem_isort.2 ha
      rw [hiso] at hai
      simp at hai
    · intro m hm
      rw [he.2.1, mem_isort] at hm
      obtain ⟨hm1, hm2⟩ := List.mem_filter.1 hm
      exact ⟨mem_dedupKeep.1 hm1, of_decide_eq_true hm2⟩

theorem c7_witness :
    (GoodMaps gChain ∧ CountInv gChain ∧
      gChain.sortG [] = .ret [[0], [1]] none ∧
      gChain.edge 0 1 ∧ (0 : Nat) ∉ [1] ∧ (1 : Nat) ∈ [1]) ∧
    ∃ (d : Nat) (dl : List Nat),
      gChain.sortG [Only [1]] = .ret [] (some (.unhandled d dl)) ∧
      d ∉ [1] ∧
      dl = isort ((dedupKeep [1]).filter (fun x => x ∈ gChain.bucket d)) ∧
      dl ≠ [] ∧ ∀ m ∈ dl, m ∈ [1] ∧ gChain.edge d m := by
  have hg : GoodMaps gChain := ⟨by decide, by decide, by decide⟩
  have hc : CountInv gChain := countInv_of_checks (by decide) (by decide)
  have h : gChain.sortG [] = .ret [[0], [1]] none := by decide
  refine ⟨⟨hg, hc, h, by decide, by decide, by decide⟩, ?_⟩
  exact c7_unhandled.1 Nat gChain [1] 1 0 [[0], [1]] hg hc h
    (by decide) (by decide) (by decide)

/-! ## Claim C1 -/

/-- C1 (counterexample): on the graph built by `AddNode 0,1,2; AddEdge 0 1;
RemoveEdge 2 1` — where the misused `RemoveEdge` decremented `1`'s count
although edge `(2,1)` never existed — `Sort()` succeeds with a nil error,
edge `(0, 1)` is present, yet `0` and `1` land in the *same* level, so `0`'s
level index is not strictly less than `1`'s. -/
theorem c1_counterexample :
    gBadCounts.sortG [] = .ret [[0, 1, 2]] none ∧
    gBadCounts.edge 0 1 ∧
    (0 : Nat) ∈ [0, 1, 2] ∧ (1 : Nat) ∈ [0, 1, 2] :=
  ⟨by decide, by decide, by decide, by decide⟩

/-- C1 (amended): level soundness holds *for graphs whose maps are
well-formed and whose remaining-input counts match the live in-degrees*
(always true when the store was built without misusing `RemoveEdge`, but
violable through the unchecked decrement, as the counterexample shows): if
`Sort()`/`Plan()` with no options returns a nil error and edge `(A, B)` is
present, then `A` and `B` each occupy exactly the levels found, and every
level index of `A` is strictly below every level index of `B`. -/
theorem c1_level_soundness {K : Type} [LinearOrder K] {g : DAG K}
    {t : List (List K)} (hg : GoodMaps g) (hc : CountInv g)
    (h : g.sortG [] = .ret t none) {A B : K} (hedge : g.edge A B) :
    (∃ i, MemGrp t i A) ∧ (∃ j, MemGrp t j B) ∧
    ∀ i j : Nat, MemGrp t i A → MemGrp t j B → i < j := by
  have h1 : g.sortWith (applySortOptions []) = .ret t none := h
  obtain ⟨s, hund, hdone, hns, hfilt⟩ := sortWith_ok_elim h1
  have hfilt' : filterRev g false false s.levels.reverse none = .ok t := hfilt
  obtain ⟨hI, hcur, hnext, hcg⟩ := kahn_done_inv hg hc hund hdone
  obtain ⟨-, -, hcomp, -, hord, -⟩ := done_success_facts hI hcur hnext hcg hns
  have hund2 := hund
  rw [copyOutputs_id] at hund2
  have hedge' : B ∈ bucketOf g.outputs A := hedge
  have hAreg : A ∈ g.nodes := by
    have hb := hedge
    unfold DAG.edge DAG.bucket at hb
    cases hl : alookup A g.outputs with
    | none => rw [hl] at hb; simp at hb
    | some m => exact findUndefined_none_mem hund2 (A, m) (alookup_mem hl)
  have hAlev : A ∈ s.levels.flatten := hcomp A hAreg
  have hBreg : B ∈ g.nodes := by
    refine hI.proc_out_reg A ?_ B hedge'
    rw [hcg]
    simpa using hAlev
  have hBlev : B ∈ s.levels.flatten := hcomp B hBreg
  have hrs := filterRev_none g false false s.levels.reverse
  rw [hfilt'] at hrs
  injection hrs with hrs
  have ht : t = s.levels.map isort := by
    rw [hrs, revSorted_reverse_map s.levels hI.grp_nonempty]
  subst ht
  refine ⟨?_, ?_, ?_⟩
  · obtain ⟨i, hi⟩ := mem_flatten_iff_memGrp.1 hAlev
    exact ⟨i, (memGrp_map_isort _ i A).2 hi⟩
  · obtain ⟨j, hj⟩ := mem_flatten_iff_memGrp.1 hBlev
    exact ⟨j, (memGrp_map_isort _ j B).2 hj⟩
  · intro i j hi hj
    exact hord A B hedge' i j ((memGrp_map_isort _ i A).1 hi)
      ((memGrp_map_isort _ j B).1 hj)

theorem c1_witness :
    (GoodMaps gChain ∧ CountInv gChain ∧
      gChain.sortG [] = .ret [[0], [1]] none ∧ gChain.edge 0 1) ∧
    (∃ i, MemGrp [[0], [1]] i 0) ∧ (∃ j, MemGrp [[0], [1]] j 1) ∧
    ∀ i j : Nat, MemGrp ([[0], [1]] : List (List Nat)) i 0 →
      MemGrp [[0], [1]] j 1 → i < j := by
  have hg : GoodMaps gChain := ⟨by decide, by decide, by decide⟩
  have hc : CountInv gChain := countInv_of_checks (by decide) (by decide)
  have h : gChain.sortG [] = .ret [[0], [1]] none := by decide
  have he : gChain.edge 0 1 := by decide
  exact ⟨⟨hg, hc, h, he⟩, c1_level_soundness hg hc h he⟩

end VDag
